import Mathlib

/-!
# Verification of the vdf-rs KeyValues serializer bridge

A shallow embedding of the `keyvalues-serde` serializer (`ser.rs`), the
parser error taxonomy (`keyvalues-parser/src/error.rs`), and — modelled from
the design specification where the source is not among the shown files — the
stream-to-AST builder, renderer and deserializer bridge.  The theorems at the
end of the file settle the specification's claims about these components.
-/

namespace VdfRs

/-- Abstract model of a 32-bit float: `finite` is the result of
`f32::is_finite` and `dec` its decimal rendering (`f32::to_string`).
Bit-level float arithmetic is outside the embedding; a finite float is
identified with its shortest decimal form, which Rust's formatter makes a
faithful representative. -/
structure F32 where
  finite : Bool
  dec : String
deriving DecidableEq, Repr

/-- Abstract model of a 64-bit float: `as32` is its narrowing `v as f32` and
`excess` stands for the extra precision discarded by that narrowing. -/
structure F64 where
  as32 : F32
  excess : String
deriving DecidableEq, Repr

/-- Tokens of the serializer's naive token stream (`NaiveToken` in
`keyvalues-serde`), exactly the six variants `ser.rs` emits. -/
inductive NaiveToken where
  | str (s : String)
  | objBegin
  | objEnd
  | seqBegin
  | seqEnd
  | null
deriving DecidableEq, Repr

/-- The host value shapes the serde data model presents to the serializer
bridge in `ser.rs`.  Tuples and tuple structs are subsumed by `seq`, which is
how `ser.rs` forwards them. -/
inductive HostValue where
  | bool (b : Bool)
  | int (n : Int)
  | char (c : Char)
  | str (s : String)
  | f32 (v : F32)
  | f64 (v : F64)
  | bytes (bs : List Nat)
  | unit
  | unitStruct (name : String)
  | opNone
  | opSome (v : HostValue)
  | unitVariant (name variant : String)
  | newtypeStruct (name : String) (v : HostValue)
  | newtypeVariant (name variant : String) (v : HostValue)
  | seq (es : List HostValue)
  | tupleVariant (name variant : String) (es : List HostValue)
  | map (es : List (HostValue × HostValue))
  | struct (name : String) (fs : List (String × HostValue))
  | structVariant (name variant : String) (fs : List (String × HostValue))

/-- The seven structural error conditions of
`keyvalues-parser/src/error.rs` (`TokenContext`). -/
inductive TokenContext where
  | eofWhileParsingKey
  | eofWhileParsingVal
  | eofWhileParsingSeq
  | eofWhileParsingObj
  | expectedSomeVal
  | expectedNonSeqVal
  | trailingTokens
deriving DecidableEq, Repr

/-- The two top-level error kinds of `keyvalues-parser/src/error.rs`
(`Error`): a grammar error from `pest` or an invalid token stream. -/
inductive KvError where
  | parseError (msg : String)
  | invalidTokenStream (context : TokenContext)
deriving DecidableEq, Repr

/-- Errors of the `keyvalues-serde` serializer: the shape-specific
unsupported errors and the non-finite float error raised in `ser.rs`, plus
the wrapped `keyvalues-parser` error from `Vdf::try_from`. -/
inductive SerError where
  | unsupported (what : String)
  | nonFiniteFloat (v : F32)
  | keyvalues (e : KvError)
deriving DecidableEq, Repr

mutual

/-- Shallow embedding of `ser.rs`: `value.serialize(&mut serializer)` where
the serializer's accumulated token stream is `ts`.  Returns the final stream
together with the error, if any, mirroring the `&mut self` state plus the
`Result`.  Booleans go through `serialize_i8(v as i8)`, 64-bit floats
through `serialize_f32(v as f32)`, structs push their name as implicit root
key when they are the very first emission. -/
def serialize : HostValue → List NaiveToken → List NaiveToken × Option SerError
  | .bool b, ts => (ts ++ [.str (toString (if b then (1 : Int) else 0))], none)
  | .int n, ts => (ts ++ [.str (toString n)], none)
  | .char c, ts => (ts ++ [.str (String.singleton c)], none)
  | .str s, ts => (ts ++ [.str s], none)
  | .f32 v, ts => serializeF32 v ts
  | .f64 v, ts => serializeF32 v.as32 ts
  | .bytes _, ts => (ts, some (.unsupported "Bytes"))
  | .unit, ts => (ts, some (.unsupported "Unit Type"))
  | .unitStruct _, ts => (ts, some (.unsupported "Unit Struct"))
  | .opNone, ts => (ts ++ [.null], none)
  | .opSome v, ts => serialize v ts
  | .unitVariant _ variant, ts => (ts ++ [.str variant], none)
  | .newtypeStruct _ v, ts => serialize v ts
  | .newtypeVariant _ _ _, ts => (ts, some (.unsupported "Enum Newtype Variant"))
  | .seq es, ts => serializeElems es (ts ++ [.seqBegin])
  | .tupleVariant _ _ _, ts => (ts, some (.unsupported "Enum Tuple Variant"))
  | .map es, ts => serializeMapEntries es (ts ++ [.objBegin])
  | .struct name fs, ts =>
      serializeFields fs ((if ts.isEmpty then ts ++ [.str name] else ts) ++ [.objBegin])
  | .structVariant _ _ _, ts => (ts, some (.unsupported "Enum Struct Variant"))

/-- `serialize_f32` of `ser.rs`: emit the decimal form if finite, otherwise
fail with `Error::NonFiniteFloat` emitting nothing. -/
def serializeF32 (v : F32) (ts : List NaiveToken) : List NaiveToken × Option SerError :=
  if v.finite then (ts ++ [.str v.dec], none) else (ts, some (.nonFiniteFloat v))

/-- Sequence elements followed by `SeqEnd` (`SerializeSeq` of `ser.rs`). -/
def serializeElems : List HostValue → List NaiveToken → List NaiveToken × Option SerError
  | [], ts => (ts ++ [.seqEnd], none)
  | e :: es, ts =>
      match serialize e ts with
      | (ts', none) => serializeElems es ts'
      | (ts', some err) => (ts', some err)

/-- Map entries, each key then value through the same bridge, followed by
`ObjEnd` (`SerializeMap` of `ser.rs`). -/
def serializeMapEntries : List (HostValue × HostValue) → List NaiveToken → List NaiveToken × Option SerError
  | [], ts => (ts ++ [.objEnd], none)
  | (k, v) :: es, ts =>
      match serialize k ts with
      | (ts', none) =>
          match serialize v ts' with
          | (ts'', none) => serializeMapEntries es ts''
          | (ts'', some err) => (ts'', some err)
      | (ts', some err) => (ts', some err)

/-- Struct fields, each static key then value, followed by `ObjEnd`
(`SerializeStruct` of `ser.rs`). -/
def serializeFields : List (String × HostValue) → List NaiveToken → List NaiveToken × Option SerError
  | [], ts => (ts ++ [.objEnd], none)
  | (k, v) :: fs, ts =>
      match serialize v (ts ++ [.str k]) with
      | (ts', none) => serializeFields fs ts'
      | (ts', some err) => (ts', some err)

end

/-- The Value AST: a string scalar, or an ordered group of key/value entries
in which keys may repeat. -/
inductive Value where
  | scalar (s : String)
  | group (entries : List (String × Value))

/-- A built document: the ordered root-level entries. -/
abbrev Doc := List (String × Value)

/-- Contexts of the stream-to-AST builder automaton: awaiting a key,
awaiting the value bound to key `k`, inside a sequence bound to `k`, or
finished with the root value region. -/
inductive BuildMode where
  | key
  | val (k : String)
  | seqM (k : String)
  | done

/-- A pending enclosing group on the builder's context stack: the key the
group will be bound to and the enclosing group's entries accumulated so far
(newest first).  `fromVal` groups were opened at a value position, `fromSeq`
groups as sequence elements. -/
inductive BuildFrame where
  | fromVal (k : String) (parent : List (String × Value))
  | fromSeq (k : String) (parent : List (String × Value))

/-- Modelled from the spec: the Stream-to-AST Builder of section 4.1
(`Vdf::try_from(&NaiveTokenStream)` in `keyvalues-serde`, whose source file
is not among the shown ones).  One token is consumed per step; `acc` holds
the current group's entries newest first and `stk` the enclosing contexts.
A sequence bound to key `k` appends one `(k, element)` entry per element to
the enclosing group, a `Null` at a value position emits nothing, and after
the root value region is complete any remaining token is a trailing-tokens
error. -/
def runBuilder : List NaiveToken → BuildMode → List (String × Value) → List BuildFrame →
    Except TokenContext Doc
  | [], m, acc, stk =>
      match m, stk with
      | .done, _ => .ok acc.reverse
      | .key, [] => .error .eofWhileParsingKey
      | .key, _ :: _ => .error .eofWhileParsingObj
      | .val _, _ => .error .eofWhileParsingVal
      | .seqM _, _ => .error .eofWhileParsingSeq
  | t :: ts, m, acc, stk =>
      match m, t with
      | .done, _ => .error .trailingTokens
      | .key, .str k => runBuilder ts (.val k) acc stk
      | .key, .objEnd =>
          match stk with
          | [] => .error .expectedSomeVal
          | .fromVal k parent :: stk' =>
              runBuilder ts (if stk'.isEmpty then .done else .key)
                ((k, .group acc.reverse) :: parent) stk'
          | .fromSeq k parent :: stk' =>
              runBuilder ts (.seqM k) ((k, .group acc.reverse) :: parent) stk'
      | .key, _ => .error .expectedSomeVal
      | .val k, .str s =>
          runBuilder ts (if stk.isEmpty then .done else .key) ((k, .scalar s) :: acc) stk
      | .val k, .objBegin => runBuilder ts .key [] (.fromVal k acc :: stk)
      | .val k, .seqBegin => runBuilder ts (.seqM k) acc stk
      | .val _, .null =>
          runBuilder ts (if stk.isEmpty then .done else .key) acc stk
      | .val _, _ => .error .expectedSomeVal
      | .seqM k, .str s => runBuilder ts (.seqM k) ((k, .scalar s) :: acc) stk
      | .seqM k, .objBegin => runBuilder ts .key [] (.fromSeq k acc :: stk)
      | .seqM _, .seqBegin => .error .expectedNonSeqVal
      | .seqM _, .seqEnd =>
          runBuilder ts (if stk.isEmpty then .done else .key) acc stk
      | .seqM _, _ => .error .expectedSomeVal

/-- Modelled from the spec: fold a whole token stream into the ordered
root-level entries (section 4.1, with the root value region able to yield
several entries when it is a sequence, as in the spec's scenario 3). -/
def build (ts : List NaiveToken) : Except TokenContext Doc :=
  runBuilder ts .key [] []

/-- The mode the builder returns to after finishing a value region: back to
awaiting a key inside a group, or done at the root. -/
def contMode (stk : List BuildFrame) : BuildMode :=
  if stk.isEmpty then .done else .key

/-- The root-key override of `_to_writer` in `ser.rs`: replace the first
token when it is a `Str`, push the key to the front when the first token is
something else, and do nothing when there is no token at all. -/
def applyKey : Option String → List NaiveToken → List NaiveToken
  | none, ts => ts
  | some _, [] => []
  | some k, .str _ :: rest => .str k :: rest
  | some k, t :: rest => .str k :: t :: rest

/-- `_to_writer` of `ser.rs` up to the built AST: serialize the value into a
fresh serializer, apply the root-key override, then convert the token stream
into a document (`Vdf::try_from`), wrapping builder errors the way the
serde error type wraps `keyvalues-parser` errors. -/
def encodeDoc (v : HostValue) (key : Option String) : Except SerError Doc :=
  match serialize v [] with
  | (_, some e) => .error e
  | (ts, none) =>
      match build (applyKey key ts) with
      | .ok d => .ok d
      | .error c => .error (.keyvalues (.invalidTokenStream c))

/-- Escaping of quotes and backslashes inside rendered text. -/
def escapeText (s : String) : String :=
  String.mk (s.data.flatMap (fun c =>
    if c = '"' then ['\\', '"'] else if c = '\\' then ['\\', '\\'] else [c]))

/-- A quoted, escaped key or scalar. -/
def quoteText (s : String) : String := "\"" ++ escapeText s ++ "\""

mutual

/-- Modelled from the spec: the external Renderer (section 6) on one value —
quoted scalars, brace-delimited nested groups, entries in stored order. -/
def renderValue : Value → String
  | .scalar s => quoteText s
  | .group es => "\x7b\n" ++ renderEntries es ++ "\x7d\n"

/-- Modelled from the spec: the external Renderer on a list of entries. -/
def renderEntries : List (String × Value) → String
  | [] => ""
  | (k, v) :: es => quoteText k ++ " " ++ renderValue v ++ "\n" ++ renderEntries es

end

/-- Modelled from the spec: render a whole document, entries in order,
duplicate keys rendered as repeated entries. -/
def renderDoc (d : Doc) : String := renderEntries d

/-- UTF-8 encoding of one Unicode scalar value, as Rust's `String` stores
its text. -/
def utf8EncodeCharNat (n : Nat) : List Nat :=
  if n < 0x80 then [n]
  else if n < 0x800 then [0xC0 + n / 64, 0x80 + n % 64]
  else if n < 0x10000 then [0xE0 + n / 4096, 0x80 + (n / 64) % 64, 0x80 + n % 64]
  else [0xF0 + n / 262144, 0x80 + (n / 4096) % 64, 0x80 + (n / 64) % 64, 0x80 + n % 64]

/-- The UTF-8 bytes of a string: the contents of the `Vec<u8>` buffer that
`to_string` and `to_string_with_key` hand to `String::from_utf8`. -/
def strUtf8 (s : String) : List Nat := s.data.flatMap (fun c => utf8EncodeCharNat c.toNat)

/-- A UTF-8 continuation byte. -/
def isCont (b : Nat) : Bool := decide (0x80 ≤ b) && decide (b < 0xC0)

/-- Extra constraint on the first continuation byte after lead `b`, ruling
out overlong forms, surrogates and values beyond U+10FFFF. -/
def firstContOk (b b1 : Nat) : Bool :=
  if b = 0xE0 then decide (0xA0 ≤ b1)
  else if b = 0xED then decide (b1 < 0xA0)
  else if b = 0xF0 then decide (0x90 ≤ b1)
  else if b = 0xF4 then decide (b1 < 0x90)
  else true

/-- Scalar value of a two-byte UTF-8 sequence. -/
def val2 (b b1 : Nat) : Nat := (b - 0xC0) * 64 + (b1 - 0x80)

/-- Scalar value of a three-byte UTF-8 sequence. -/
def val3 (b b1 b2 : Nat) : Nat := (b - 0xE0) * 4096 + (b1 - 0x80) * 64 + (b2 - 0x80)

/-- Scalar value of a four-byte UTF-8 sequence. -/
def val4 (b b1 b2 b3 : Nat) : Nat :=
  (b - 0xF0) * 262144 + (b1 - 0x80) * 4096 + (b2 - 0x80) * 64 + (b3 - 0x80)

/-- Strict UTF-8 validation and decoding to Unicode scalar values, the check
`String::from_utf8` performs: rejects overlong forms, surrogates and
out-of-range sequences. -/
def utf8Decode : List Nat → Option (List Nat)
  | [] => some []
  | b :: rest =>
      if b < 0x80 then (utf8Decode rest).map (b :: ·)
      else if b < 0xC2 then none
      else if b < 0xE0 then
        match rest with
        | b1 :: rest' =>
            if isCont b1 then (utf8Decode rest').map (val2 b b1 :: ·) else none
        | [] => none
      else if b < 0xF0 then
        match rest with
        | b1 :: b2 :: rest' =>
            if isCont b1 && firstContOk b b1 && isCont b2 then
              (utf8Decode rest').map (val3 b b1 b2 :: ·)
            else none
        | _ => none
      else if b < 0xF5 then
        match rest with
        | b1 :: b2 :: b3 :: rest' =>
            if isCont b1 && firstContOk b b1 && isCont b2 && isCont b3 then
              (utf8Decode rest').map (val4 b b1 b2 b3 :: ·)
            else none
        | _ => none
      else none

/-- Model of `String::from_utf8`: validate and decode the buffer. -/
def fromUtf8 (bs : List Nat) : Option String :=
  (utf8Decode bs).map (fun ns => String.mk (ns.map Char.ofNat))

/-- The `to_string` pipeline of `ser.rs` up to the byte buffer: encode the
document, render it, and collect the UTF-8 bytes written into the
`Vec<u8>`. -/
def encodeBuffer (v : HostValue) (key : Option String) : Except SerError (List Nat) :=
  match encodeDoc v key with
  | .ok d => .ok (strUtf8 (renderDoc d))
  | .error e => .error e

/-- The host type shapes the deserializer bridge can be driven by: the
reconstruction protocol is type-directed, so the decode direction of the
round trip is stated against this universe.  Enum types carry their unit
variants only; payload-carrying variants, bytes and units are not typeable
precisely because the claim excludes them and the serializer rejects
them. -/
inductive HostTy where
  | bool
  | int
  | char
  | str
  | f32
  | f64
  | option (t : HostTy)
  | seq (t : HostTy)
  | map (kt vt : HostTy)
  | struct (name : String) (fs : List (String × HostTy))
  | enumT (name : String) (variants : List String)
  | newtypeStruct (name : String) (t : HostTy)

mutual

/-- Typing of host values: the value has exactly the shape the type
describes (struct fields in declared order with declared names). -/
def wf : HostTy → HostValue → Bool
  | .bool, .bool _ => true
  | .int, .int _ => true
  | .char, .char _ => true
  | .str, .str _ => true
  | .f32, .f32 _ => true
  | .f64, .f64 _ => true
  | .option t, .opNone => true
  | .option t, .opSome v => wf t v
  | .seq t, .seq es => wfList t es
  | .map kt vt, .map es => wfPairs kt vt es
  | .struct n fts, .struct n' fs => decide (n = n') && wfFields fts fs
  | .enumT n vars, .unitVariant n' var => decide (n = n') && decide (var ∈ vars)
  | .newtypeStruct n t, .newtypeStruct n' v => decide (n = n') && wf t v
  | _, _ => false

def wfList (t : HostTy) : List HostValue → Bool
  | [] => true
  | v :: vs => wf t v && wfList t vs

def wfPairs (kt vt : HostTy) : List (HostValue × HostValue) → Bool
  | [] => true
  | (k, v) :: es => wf kt k && wf vt v && wfPairs kt vt es

def wfFields : List (String × HostTy) → List (String × HostValue) → Bool
  | [], [] => true
  | (fn, ft) :: fts, (fn', fv) :: fs => decide (fn = fn') && wf ft fv && wfFields fts fs
  | _, _ => false

end

mutual

/-- Serializer success: the value contains no shape `ser.rs` rejects and no
non-finite float (64-bit floats judged after narrowing). -/
def encOk : HostValue → Bool
  | .bool _ => true
  | .int _ => true
  | .char _ => true
  | .str _ => true
  | .f32 v => v.finite
  | .f64 w => w.as32.finite
  | .bytes _ => false
  | .unit => false
  | .unitStruct _ => false
  | .opNone => true
  | .opSome v => encOk v
  | .unitVariant _ _ => true
  | .newtypeStruct _ v => encOk v
  | .newtypeVariant _ _ _ => false
  | .seq es => encOkList es
  | .tupleVariant _ _ _ => false
  | .map es => encOkPairs es
  | .struct _ fs => encOkFields fs
  | .structVariant _ _ _ => false

def encOkList : List HostValue → Bool
  | [] => true
  | v :: vs => encOk v && encOkList vs

def encOkPairs : List (HostValue × HostValue) → Bool
  | [] => true
  | (k, v) :: es => encOk k && encOk v && encOkPairs es

def encOkFields : List (String × HostValue) → Bool
  | [] => true
  | (_, v) :: fs => encOk v && encOkFields fs

end

/-- A shape that, after unwrapping transparent wrappers, serializes to a
single `Str` token — the only shapes legal at a map-key position. -/
def keyShape : HostValue → Bool
  | .bool _ => true
  | .int _ => true
  | .char _ => true
  | .str _ => true
  | .f32 _ => true
  | .f64 _ => true
  | .unitVariant _ _ => true
  | .opSome v => keyShape v
  | .newtypeStruct _ v => keyShape v
  | _ => false

/-- A shape legal as a sequence element: after unwrapping it is neither an
absent optional (a `Null` in a sequence) nor a nested sequence, both of
which the builder rejects. -/
def plainElem : HostValue → Bool
  | .opSome v => plainElem v
  | .newtypeStruct _ v => plainElem v
  | .opNone => false
  | .seq _ => false
  | .bool _ => true
  | .int _ => true
  | .char _ => true
  | .str _ => true
  | .f32 _ => true
  | .f64 _ => true
  | .unitVariant _ _ => true
  | .map _ => true
  | .struct _ _ => true
  | _ => false

mutual

/-- Builder acceptance at a value position: sequences hold only plain
elements, maps bind key shapes to legal values, structs hold legal field
values. -/
def okVal : HostValue → Bool
  | .bool _ => true
  | .int _ => true
  | .char _ => true
  | .str _ => true
  | .f32 _ => true
  | .f64 _ => true
  | .unitVariant _ _ => true
  | .opNone => true
  | .opSome v => okVal v
  | .newtypeStruct _ v => okVal v
  | .seq es => okValList es
  | .map es => okValPairs es
  | .struct _ fs => okValFields fs
  | _ => false

def okValList : List HostValue → Bool
  | [] => true
  | v :: vs => okVal v && plainElem v && okValList vs

def okValPairs : List (HostValue × HostValue) → Bool
  | [] => true
  | (k, v) :: es => keyShape k && okVal v && okValPairs es

def okValFields : List (String × HostValue) → Bool
  | [] => true
  | (_, v) :: fs => okVal v && okValFields fs

end

/-- A value whose serialization contributes no entry to the enclosing
group: absent optionals, empty sequences, and transparent wrappers of
those. -/
def vanishes : HostValue → Bool
  | .opNone => true
  | .opSome v => vanishes v
  | .newtypeStruct _ v => vanishes v
  | .seq [] => true
  | _ => false

/-- The single string a key-shaped value serializes to. -/
def keyStr : HostValue → String
  | .bool b => toString (if b then (1 : Int) else 0)
  | .int n => toString n
  | .char c => String.singleton c
  | .str s => s
  | .f32 v => v.dec
  | .f64 w => w.as32.dec
  | .unitVariant _ var => var
  | .opSome v => keyStr v
  | .newtypeStruct _ v => keyStr v
  | _ => ""

mutual

/-- Round-trip safety: the extra conditions (beyond what the claim already
excludes) under which decode inverts encode — no present optional wrapping
a vanishing value, no vanishing map value, distinct struct field names and
distinct serialized map keys. -/
def roundSafe : HostValue → Bool
  | .opSome v => !vanishes v && roundSafe v
  | .newtypeStruct _ v => roundSafe v
  | .seq es => roundSafeList es
  | .map es => decide ((es.map (fun p => keyStr p.1)).Nodup) && roundSafePairs es
  | .struct _ fs => decide ((fs.map Prod.fst).Nodup) && roundSafeFields fs
  | _ => true

def roundSafeList : List HostValue → Bool
  | [] => true
  | v :: vs => roundSafe v && roundSafeList vs

def roundSafePairs : List (HostValue × HostValue) → Bool
  | [] => true
  | (k, v) :: es => roundSafe k && (!vanishes v && roundSafe v) && roundSafePairs es

def roundSafeFields : List (String × HostValue) → Bool
  | [] => true
  | (_, v) :: fs => roundSafe v && roundSafeFields fs

end

mutual

/-- The token emission of a value serialized with a non-empty accumulated
stream (so structs do not push their implicit root key). -/
def toks : HostValue → List NaiveToken
  | .bool b => [.str (toString (if b then (1 : Int) else 0))]
  | .int n => [.str (toString n)]
  | .char c => [.str (String.singleton c)]
  | .str s => [.str s]
  | .f32 v => [.str v.dec]
  | .f64 w => [.str w.as32.dec]
  | .opNone => [.null]
  | .opSome v => toks v
  | .unitVariant _ var => [.str var]
  | .newtypeStruct _ v => toks v
  | .seq es => .seqBegin :: toksList es ++ [.seqEnd]
  | .map es => .objBegin :: toksPairs es ++ [.objEnd]
  | .struct _ fs => .objBegin :: toksFields fs ++ [.objEnd]
  | _ => []

def toksList : List HostValue → List NaiveToken
  | [] => []
  | v :: vs => toks v ++ toksList vs

def toksPairs : List (HostValue × HostValue) → List NaiveToken
  | [] => []
  | (k, v) :: es => toks k ++ toks v ++ toksPairs es

def toksFields : List (String × HostValue) → List NaiveToken
  | [] => []
  | (fn, v) :: fs => .str fn :: toks v ++ toksFields fs

end

/-- The token emission of a value serialized first into a fresh serializer:
a struct (under transparent wrappers) pushes its name as implicit root
key. -/
def toksTop : HostValue → List NaiveToken
  | .struct n fs => .str n :: toks (.struct n fs)
  | .opSome v => toksTop v
  | .newtypeStruct _ v => toksTop v
  | v => toks v

mutual

/-- The AST value a non-vanishing, non-sequence host value builds to. -/
def valOf : HostValue → Value
  | .bool b => .scalar (toString (if b then (1 : Int) else 0))
  | .int n => .scalar (toString n)
  | .char c => .scalar (String.singleton c)
  | .str s => .scalar s
  | .f32 v => .scalar v.dec
  | .f64 w => .scalar w.as32.dec
  | .unitVariant _ var => .scalar var
  | .opSome v => valOf v
  | .newtypeStruct _ v => valOf v
  | .map es => .group (entriesPairs es)
  | .struct _ fs => .group (entriesFields fs)
  | _ => .scalar ""

/-- The group entries a value bound to key `k` contributes: none for a
vanishing value, one per element for a sequence, a single entry
otherwise. -/
def entriesOf (k : String) : HostValue → List (String × Value)
  | .opNone => []
  | .opSome v => entriesOf k v
  | .newtypeStruct _ v => entriesOf k v
  | .seq es => entriesSeq k es
  | .map es => [(k, .group (entriesPairs es))]
  | .struct _ fs => [(k, .group (entriesFields fs))]
  | .bool b => [(k, .scalar (toString (if b then (1 : Int) else 0)))]
  | .int n => [(k, .scalar (toString n))]
  | .char c => [(k, .scalar (String.singleton c))]
  | .str s => [(k, .scalar s)]
  | .f32 v => [(k, .scalar v.dec)]
  | .f64 w => [(k, .scalar w.as32.dec)]
  | .unitVariant _ var => [(k, .scalar var)]
  | _ => [(k, .scalar "")]

def entriesSeq (k : String) : List HostValue → List (String × Value)
  | [] => []
  | e :: es => (k, valOf e) :: entriesSeq k es

def entriesPairs : List (HostValue × HostValue) → List (String × Value)
  | [] => []
  | (kv, vv) :: es => entriesOf (keyStr kv) vv ++ entriesPairs es

def entriesFields : List (String × HostValue) → List (String × Value)
  | [] => []
  | (fn, v) :: fs => entriesOf fn v ++ entriesFields fs

end

/-- Whether the top-level value is, under transparent wrappers, a struct
(which supplies its own implicit root key). -/
def isStructTop : HostValue → Bool
  | .struct _ _ => true
  | .opSome v => isStructTop v
  | .newtypeStruct _ v => isStructTop v
  | _ => false

/-- Whether the top-level value starts, under transparent wrappers, with a
non-`Str` token (so the root-key override inserts rather than replaces). -/
def nonScalarTop : HostValue → Bool
  | .struct _ _ => true
  | .map _ => true
  | .seq _ => true
  | .opNone => true
  | .opSome v => nonScalarTop v
  | .newtypeStruct _ v => nonScalarTop v
  | _ => false

/-- A top-level shape that yields a well-formed document: a struct when no
key is supplied; with an explicit key, also maps, sequences and absent
optionals (bare scalars are destroyed by the override, see C2). -/
def topOk : Option String → HostValue → Bool
  | none, v => isStructTop v
  | some _, v => nonScalarTop v

/-- The implicit root key of a struct under transparent wrappers. -/
def rootName : HostValue → String
  | .struct n _ => n
  | .opSome v => rootName v
  | .newtypeStruct _ v => rootName v
  | _ => ""

/-- The document a top-level value encodes to. -/
def docOf (key : Option String) (v : HostValue) : Doc :=
  entriesOf (match key with | some k => k | none => rootName v) v

mutual

/-- Narrowing: replace every 64-bit float by its 32-bit image, the lossy
conversion the encode direction performs by design. -/
def narrow : HostValue → HostValue
  | .f64 w => .f64 ⟨w.as32, ""⟩
  | .opSome v => .opSome (narrow v)
  | .newtypeStruct n v => .newtypeStruct n (narrow v)
  | .seq es => .seq (narrowList es)
  | .map es => .map (narrowPairs es)
  | .struct n fs => .struct n (narrowFields fs)
  | v => v

def narrowList : List HostValue → List HostValue
  | [] => []
  | v :: vs => narrow v :: narrowList vs

def narrowPairs : List (HostValue × HostValue) → List (HostValue × HostValue)
  | [] => []
  | (k, v) :: es => (narrow k, narrow v) :: narrowPairs es

def narrowFields : List (String × HostValue) → List (String × HostValue)
  | [] => []
  | (fn, v) :: fs => (fn, narrow v) :: narrowFields fs

end

/-- Decimal digit value of a character. -/
def digitVal (c : Char) : Option Nat :=
  if '0' ≤ c ∧ c ≤ '9' then some (c.toNat - 48) else none

/-- Parse an unsigned decimal numeral, most significant digit first. -/
def parseNatChars : List Char → Nat → Option Nat
  | [], acc => some acc
  | c :: cs, acc =>
      match digitVal c with
      | some d => parseNatChars cs (acc * 10 + d)
      | none => none

/-- Parse a decimal integer as the deserializer bridge does for integer
fields. -/
def parseInt (s : String) : Option Int :=
  match s.data with
  | [] => none
  | c :: cs =>
      if c = '-' then
        if cs.isEmpty then none else (parseNatChars cs 0).map (fun n => -(n : Int))
      else (parseNatChars (c :: cs) 0).map (fun n => (n : Int))

/-- The decimal digit list of a natural number, most significant first
(the list `Nat.toDigits 10` produces, in a fuel-free formulation used by
the proofs). -/
def natDigits (n : Nat) : List Char :=
  if n < 10 then [Nat.digitChar n] else natDigits (n / 10) ++ [Nat.digitChar (n % 10)]
decreasing_by exact Nat.div_lt_self (by omega) (by omega)

/-- The scalar text of an AST value, if it is a scalar. -/
def scalarOf : Value → Option String
  | .scalar s => some s
  | .group _ => none

/-- The entries of an AST value, if it is a group. -/
def groupOf : Value → Option (List (String × Value))
  | .scalar _ => none
  | .group es => some es

/-- Split a group's entries into maximal runs of consecutive equal keys,
the view under which the deserializer bridge re-expands repeated keys. -/
def runsBy : List (String × Value) → List (String × List Value)
  | [] => []
  | (k, v) :: rest =>
      match runsBy rest with
      | (k', vs) :: runs => if k = k' then (k, v :: vs) :: runs else (k, [v]) :: (k', vs) :: runs
      | [] => [(k, [v])]

mutual

/-- Modelled from the spec: the Deserializer Bridge of section 4.4 (the
`de.rs` of `keyvalues-serde`, whose source file is not among the shown
ones), presented field-wise: reconstruct a host value of the given type
from the list of AST values bound to one key.  A sequence type consumes
all matching values, an optional type is absent exactly when no value
matches, any other type uses the first matching value; scalars are parsed
back by kind; structs match field names against entry keys; maps re-expand
runs of repeated keys. -/
def decodeField : HostTy → List Value → Option HostValue
  | .seq t, vs => (vs.mapM (fun v => decodeField t [v])).map .seq
  | .option _, [] => some .opNone
  | .option t, v :: vs => (decodeField t (v :: vs)).map .opSome
  | .newtypeStruct n t, vs => (decodeField t vs).map (.newtypeStruct n)
  | .bool, v :: _ =>
      (scalarOf v).bind (fun s =>
        if s = "1" then some (.bool true)
        else if s = "0" then some (.bool false) else none)
  | .int, v :: _ => (scalarOf v).bind (fun s => (parseInt s).map .int)
  | .char, v :: _ =>
      (scalarOf v).bind (fun s =>
        match s.data with
        | [c] => some (.char c)
        | _ => none)
  | .str, v :: _ => (scalarOf v).map .str
  | .f32, v :: _ => (scalarOf v).map (fun s => .f32 ⟨true, s⟩)
  | .f64, v :: _ => (scalarOf v).map (fun s => .f64 ⟨⟨true, s⟩, ""⟩)
  | .enumT n vars, v :: _ =>
      (scalarOf v).bind (fun s => if s ∈ vars then some (.unitVariant n s) else none)
  | .struct n fts, v :: _ =>
      (groupOf v).bind (fun es => (decodeFields fts es).map (.struct n))
  | .map kt vt, v :: _ =>
      (groupOf v).bind (fun es =>
        ((runsBy es).mapM (fun r =>
          (decodeField kt [.scalar r.1]).bind (fun hk =>
            (decodeField vt r.2).map (fun hv => (hk, hv))))).map .map)
  | _, [] => none

/-- Decode a struct's declared fields against a group's entries. -/
def decodeFields : List (String × HostTy) → List (String × Value) → Option (List (String × HostValue))
  | [], _ => some []
  | (fn, ft) :: fts, es =>
      match decodeField ft ((es.filter (fun e => e.1 = fn)).map Prod.snd), decodeFields fts es with
      | some hv, some rest => some ((fn, hv) :: rest)
      | _, _ => none

end

/-- Modelled from the spec: decode a whole document at a type (sections 4.4
and 6, with the external Text Grammar assumed inverse to the Renderer so
that decode receives exactly the document encode produced).  A top-level
sequence collects every root entry; a top-level optional is absent exactly
when the document is empty; otherwise the single root entry's value is
decoded, the root key being supplied by the caller's type. -/
def decodeRoot : HostTy → Doc → Option HostValue
  | .seq t, es => ((es.mapM (fun e => decodeField t [e.2]))).map .seq
  | .option _, [] => some .opNone
  | .option t, e :: es => (decodeRoot t (e :: es)).map .opSome
  | .newtypeStruct n t, es => (decodeRoot t es).map (.newtypeStruct n)
  | t, [(_, v)] => decodeField t [v]
  | _, _ => none

/-- A host type exercising every supported shape, used to instantiate the
round-trip theorem at a concrete input. -/
def kitchenTy : HostTy :=
  .struct "root" [
    ("flag", .bool),
    ("count", .int),
    ("letter", .char),
    ("title", .str),
    ("ratio", .f32),
    ("wide", .f64),
    ("mode", .enumT "Mode" ["On", "Off"]),
    ("missing", .option .int),
    ("present", .option .str),
    ("items", .seq .int),
    ("none_items", .seq .bool),
    ("table", .map .str .int),
    ("inner", .struct "Inner" [("x", .int)]),
    ("wrapped", .newtypeStruct "Wrap" .bool)]

/-- A host value of type `kitchenTy` exercising every supported shape. -/
def kitchenVal : HostValue :=
  .struct "root" [
    ("flag", .bool true),
    ("count", .int (-7)),
    ("letter", .char 'z'),
    ("title", .str "hello world"),
    ("ratio", .f32 ⟨true, "1.5"⟩),
    ("wide", .f64 ⟨⟨true, "2.25"⟩, "2.250000001"⟩),
    ("mode", .unitVariant "Mode" "On"),
    ("missing", .opNone),
    ("present", .opSome (.str "yes")),
    ("items", .seq [.int 1, .int 2, .int 3]),
    ("none_items", .seq []),
    ("table", .map [(.str "a", .int 10), (.str "b", .int 20)]),
    ("inner", .struct "Inner" [("x", .int 5)]),
    ("wrapped", .newtypeStruct "Wrap" (.bool false))]


/-- Builder step: a key token moves to the value mode. -/
theorem run_key_str (s : String) (ts : List NaiveToken) (acc : List (String × Value))
    (stk : List BuildFrame) :
    runBuilder (.str s :: ts) .key acc stk = runBuilder ts (.val s) acc stk := rfl

/-- Builder step: a scalar at a value position emits one entry. -/
theorem run_val_str (k s : String) (ts : List NaiveToken) (acc : List (String × Value))
    (stk : List BuildFrame) :
    runBuilder (.str s :: ts) (.val k) acc stk
      = runBuilder ts (contMode stk) ((k, .scalar s) :: acc) stk := by
  cases stk <;> rfl

/-- Builder step: a `Null` at a value position emits nothing. -/
theorem run_val_null (k : String) (ts : List NaiveToken) (acc : List (String × Value))
    (stk : List BuildFrame) :
    runBuilder (.null :: ts) (.val k) acc stk = runBuilder ts (contMode stk) acc stk := by
  cases stk <;> rfl

/-- Builder step: an `ObjBegin` at a value position opens a group. -/
theorem run_val_objBegin (k : String) (ts : List NaiveToken) (acc : List (String × Value))
    (stk : List BuildFrame) :
    runBuilder (.objBegin :: ts) (.val k) acc stk
      = runBuilder ts .key [] (.fromVal k acc :: stk) := rfl

/-- Builder step: a `SeqBegin` at a value position enters sequence mode. -/
theorem run_val_seqBegin (k : String) (ts : List NaiveToken) (acc : List (String × Value))
    (stk : List BuildFrame) :
    runBuilder (.seqBegin :: ts) (.val k) acc stk = runBuilder ts (.seqM k) acc stk := rfl

/-- Builder step: a scalar sequence element appends an entry under the
bound key. -/
theorem run_seq_str (k s : String) (ts : List NaiveToken) (acc : List (String × Value))
    (stk : List BuildFrame) :
    runBuilder (.str s :: ts) (.seqM k) acc stk
      = runBuilder ts (.seqM k) ((k, .scalar s) :: acc) stk := rfl

/-- Builder step: an `ObjBegin` sequence element opens a group to rejoin
the sequence on close. -/
theorem run_seq_objBegin (k : String) (ts : List NaiveToken) (acc : List (String × Value))
    (stk : List BuildFrame) :
    runBuilder (.objBegin :: ts) (.seqM k) acc stk
      = runBuilder ts .key [] (.fromSeq k acc :: stk) := rfl

/-- Builder step: `SeqEnd` closes the sequence. -/
theorem run_seq_seqEnd (k : String) (ts : List NaiveToken) (acc : List (String × Value))
    (stk : List BuildFrame) :
    runBuilder (.seqEnd :: ts) (.seqM k) acc stk = runBuilder ts (contMode stk) acc stk := by
  cases stk <;> rfl

/-- Builder step: `ObjEnd` closes a group opened at a value position. -/
theorem run_key_objEnd_fromVal (k : String) (ts : List NaiveToken)
    (acc parent : List (String × Value)) (stk : List BuildFrame) :
    runBuilder (.objEnd :: ts) .key acc (.fromVal k parent :: stk)
      = runBuilder ts (contMode stk) ((k, .group acc.reverse) :: parent) stk := by
  cases stk <;> rfl

/-- Builder step: `ObjEnd` closes a group opened as a sequence element. -/
theorem run_key_objEnd_fromSeq (k : String) (ts : List NaiveToken)
    (acc parent : List (String × Value)) (stk : List BuildFrame) :
    runBuilder (.objEnd :: ts) .key acc (.fromSeq k parent :: stk)
      = runBuilder ts (.seqM k) ((k, .group acc.reverse) :: parent) stk := rfl

/-- The serializer with a non-empty accumulated stream appends exactly the
context-free token emission, for values and for the three aggregate
walks. -/
theorem serialize_toks :
    (∀ v ts, encOk v = true → ts ≠ [] → serialize v ts = (ts ++ toks v, none)) ∧
    (∀ fs ts, encOkFields fs = true → ts ≠ [] →
      serializeFields fs ts = (ts ++ toksFields fs ++ [.objEnd], none)) ∧
    (∀ es ts, encOkPairs es = true → ts ≠ [] →
      serializeMapEntries es ts = (ts ++ toksPairs es ++ [.objEnd], none)) ∧
    (∀ es ts, encOkList es = true → ts ≠ [] →
      serializeElems es ts = (ts ++ toksList es ++ [.seqEnd], none)) := by
  apply serialize.mutual_induct <;> intros <;>
    simp_all [serialize, serializeF32, serializeElems, serializeMapEntries, serializeFields,
      encOk, encOkList, encOkPairs, encOkFields, toks, toksList, toksPairs, toksFields]

/-- A key-shaped value's tokens are the single key string. -/
theorem toks_keyShape (v : HostValue) (h : keyShape v = true) :
    toks v = [.str (keyStr v)] := by
  induction v using keyShape.induct <;> simp_all [keyShape, toks, keyStr]

/-- A key-shaped value's AST value is the scalar of its key string. -/
theorem valOf_keyShape (v : HostValue) (h : keyShape v = true) :
    valOf v = .scalar (keyStr v) := by
  induction v using keyShape.induct <;> simp_all [keyShape, valOf, keyStr]

/-- A plain element contributes exactly one entry, its AST value. -/
theorem entriesOf_plainElem (k : String) (v : HostValue) (h : plainElem v = true) :
    entriesOf k v = [(k, valOf v)] := by
  induction v using plainElem.induct <;> simp_all [plainElem, entriesOf, valOf]

/-- A non-vanishing legal value contributes at least one entry. -/
theorem entriesOf_nonvanishing (k : String) (v : HostValue) (hv : vanishes v = false) :
    entriesOf k v ≠ [] := by
  match v with
  | .opNone => simp [vanishes] at hv
  | .opSome v =>
      simp only [vanishes] at hv
      simpa [entriesOf] using entriesOf_nonvanishing k v hv
  | .newtypeStruct _ v =>
      simp only [vanishes] at hv
      simpa [entriesOf] using entriesOf_nonvanishing k v hv
  | .seq [] => simp [vanishes] at hv
  | .seq (e :: es) => simp [entriesOf, entriesSeq]
  | .map es => simp [entriesOf]
  | .struct _ fs => simp [entriesOf]
  | .bool _ | .int _ | .char _ | .str _ | .f32 _ | .f64 _ | .unitVariant _ _ =>
      simp [entriesOf]
  | .bytes _ | .unit | .unitStruct _ | .newtypeVariant _ _ _ | .tupleVariant _ _ _
  | .structVariant _ _ _ => simp [entriesOf]

/-- The keys of a sequence expansion are all the bound key. -/
theorem entriesSeq_keys (k : String) (es : List HostValue) :
    ∀ e ∈ entriesSeq k es, e.1 = k := by
  induction es with
  | nil => simp [entriesSeq]
  | cons e es ih => simpa [entriesSeq] using ih

/-- Every entry a value contributes carries the bound key. -/
theorem entriesOf_keys (k : String) (v : HostValue) :
    ∀ e ∈ entriesOf k v, e.1 = k := by
  match v with
  | .opNone => simp [entriesOf]
  | .opSome v => simpa [entriesOf] using entriesOf_keys k v
  | .newtypeStruct _ v => simpa [entriesOf] using entriesOf_keys k v
  | .seq es => simpa [entriesOf] using entriesSeq_keys k es
  | .map es => simp [entriesOf]
  | .struct _ fs => simp [entriesOf]
  | .bool _ | .int _ | .char _ | .str _ | .f32 _ | .f64 _ | .unitVariant _ _ =>
      simp [entriesOf]
  | .bytes _ | .unit | .unitStruct _ | .newtypeVariant _ _ _ | .tupleVariant _ _ _
  | .structVariant _ _ _ => simp [entriesOf]

/-- Under transparent wrappers a struct's top emission is its name followed
by its plain tokens. -/
theorem toksTop_struct (v : HostValue) (h : isStructTop v = true) :
    toksTop v = .str (rootName v) :: toks v := by
  induction v using isStructTop.induct <;>
    simp_all [isStructTop, toksTop, rootName, toks]

/-- A non-struct top value emits its plain tokens. -/
theorem toksTop_plain (v : HostValue) (h : isStructTop v = false) :
    toksTop v = toks v := by
  induction v using isStructTop.induct <;> simp_all [isStructTop, toksTop, toks]

/-- Serializing into a fresh serializer emits the top-level tokens. -/
theorem serialize_top (v : HostValue) (h : encOk v = true) :
    serialize v [] = (toksTop v, none) := by
  match v with
  | .opSome v =>
      simp only [encOk] at h
      simpa [serialize, toksTop] using serialize_top v h
  | .newtypeStruct _ v =>
      simp only [encOk] at h
      simpa [serialize, toksTop] using serialize_top v h
  | .struct n fs =>
      simp only [encOk] at h
      have := serialize_toks.2.1 fs [.str n, .objBegin] h (by simp)
      simp only [serialize, List.isEmpty_nil, if_pos, List.nil_append] at *
      simpa [toksTop, toks] using this
  | .seq es =>
      simp only [encOk] at h
      have := serialize_toks.2.2.2 es [.seqBegin] h (by simp)
      simp only [serialize, List.nil_append] at *
      simpa [toksTop, toks] using this
  | .map es =>
      simp only [encOk] at h
      have := serialize_toks.2.2.1 es [.objBegin] h (by simp)
      simp only [serialize, List.nil_append] at *
      simpa [toksTop, toks] using this
  | .bool b => simp [serialize, toksTop, toks]
  | .int n => simp [serialize, toksTop, toks]
  | .char c => simp [serialize, toksTop, toks]
  | .str s => simp [serialize, toksTop, toks]
  | .f32 v => simp_all [serialize, serializeF32, encOk, toksTop, toks]
  | .f64 w => simp_all [serialize, serializeF32, encOk, toksTop, toks]
  | .opNone => simp [serialize, toksTop, toks]
  | .unitVariant _ var => simp [serialize, toksTop, toks]
  | .bytes _ | .unit | .unitStruct _ | .newtypeVariant _ _ _ | .tupleVariant _ _ _
  | .structVariant _ _ _ => simp [encOk] at h

/-- The continuation mode inside a group is awaiting a key. -/
theorem contMode_ne (stk : List BuildFrame) (h : stk ≠ []) : contMode stk = .key := by
  cases stk with
  | nil => exact absurd rfl h
  | cons f stk => rfl

mutual

/-- The builder consumes a legal value's tokens at a value position and
appends exactly its entries. -/
theorem buildVal (v : HostValue) (k : String) (ts : List NaiveToken)
    (acc : List (String × Value)) (stk : List BuildFrame) (h : okVal v = true) :
    runBuilder (toks v ++ ts) (.val k) acc stk
      = runBuilder ts (contMode stk) ((entriesOf k v).reverse ++ acc) stk := by
  match v with
  | .bool b => simp [toks, entriesOf, run_val_str]
  | .int n => simp [toks, entriesOf, run_val_str]
  | .char c => simp [toks, entriesOf, run_val_str]
  | .str s => simp [toks, entriesOf, run_val_str]
  | .f32 v => simp [toks, entriesOf, run_val_str]
  | .f64 w => simp [toks, entriesOf, run_val_str]
  | .unitVariant _ var => simp [toks, entriesOf, run_val_str]
  | .opNone => simp [toks, entriesOf, run_val_null]
  | .opSome v =>
      simp only [okVal] at h
      simpa [toks, entriesOf] using buildVal v k ts acc stk h
  | .newtypeStruct _ v =>
      simp only [okVal] at h
      simpa [toks, entriesOf] using buildVal v k ts acc stk h
  | .seq es =>
      simp only [okVal] at h
      simp only [toks, List.cons_append, List.append_assoc, run_val_seqBegin]
      rw [buildSeqList es k _ acc stk h]
      simp [run_seq_seqEnd, entriesOf]
  | .map es =>
      simp only [okVal] at h
      simp only [toks, List.cons_append, List.append_assoc, run_val_objBegin]
      rw [buildPairs es _ [] (.fromVal k acc :: stk) h (by simp)]
      simp [run_key_objEnd_fromVal, entriesOf]
  | .struct n fs =>
      simp only [okVal] at h
      simp only [toks, List.cons_append, List.append_assoc, run_val_objBegin]
      rw [buildFields fs _ [] (.fromVal k acc :: stk) h (by simp)]
      simp [run_key_objEnd_fromVal, entriesOf]
  | .bytes _ | .unit | .unitStruct _ | .newtypeVariant _ _ _ | .tupleVariant _ _ _
  | .structVariant _ _ _ => simp [okVal] at h

/-- The builder consumes a plain element's tokens inside a sequence and
appends one entry under the bound key. -/
theorem buildElem (v : HostValue) (k : String) (ts : List NaiveToken)
    (acc : List (String × Value)) (stk : List BuildFrame) (h : okVal v = true)
    (hp : plainElem v = true) :
    runBuilder (toks v ++ ts) (.seqM k) acc stk
      = runBuilder ts (.seqM k) ((k, valOf v) :: acc) stk := by
  match v with
  | .bool b => simp [toks, valOf, run_seq_str]
  | .int n => simp [toks, valOf, run_seq_str]
  | .char c => simp [toks, valOf, run_seq_str]
  | .str s => simp [toks, valOf, run_seq_str]
  | .f32 v => simp [toks, valOf, run_seq_str]
  | .f64 w => simp [toks, valOf, run_seq_str]
  | .unitVariant _ var => simp [toks, valOf, run_seq_str]
  | .opSome v =>
      simp only [okVal] at h
      simp only [plainElem] at hp
      simpa [toks, valOf] using buildElem v k ts acc stk h hp
  | .newtypeStruct _ v =>
      simp only [okVal] at h
      simp only [plainElem] at hp
      simpa [toks, valOf] using buildElem v k ts acc stk h hp
  | .map es =>
      simp only [okVal] at h
      simp only [toks, List.cons_append, List.append_assoc, run_seq_objBegin]
      rw [buildPairs es _ [] (.fromSeq k acc :: stk) h (by simp)]
      simp [run_key_objEnd_fromSeq, valOf]
  | .struct n fs =>
      simp only [okVal] at h
      simp only [toks, List.cons_append, List.append_assoc, run_seq_objBegin]
      rw [buildFields fs _ [] (.fromSeq k acc :: stk) h (by simp)]
      simp [run_key_objEnd_fromSeq, valOf]
  | .opNone => simp [plainElem] at hp
  | .seq _ => simp [plainElem] at hp
  | .bytes _ | .unit | .unitStruct _ | .newtypeVariant _ _ _ | .tupleVariant _ _ _
  | .structVariant _ _ _ => simp [okVal] at h

/-- The builder consumes a legal element list inside a sequence and appends
the sequence expansion. -/
theorem buildSeqList (es : List HostValue) (k : String) (ts : List NaiveToken)
    (acc : List (String × Value)) (stk : List BuildFrame) (h : okValList es = true) :
    runBuilder (toksList es ++ ts) (.seqM k) acc stk
      = runBuilder ts (.seqM k) ((entriesSeq k es).reverse ++ acc) stk := by
  match es with
  | [] => simp [toksList, entriesSeq]
  | e :: es =>
      simp only [okValList, Bool.and_eq_true] at h
      simp only [toksList, List.append_assoc]
      rw [buildElem e k _ acc stk h.1.1 h.1.2, buildSeqList es k ts _ stk h.2]
      simp [entriesSeq]

/-- The builder consumes a legal map body inside a group and appends its
entries. -/
theorem buildPairs (es : List (HostValue × HostValue)) (ts : List NaiveToken)
    (acc : List (String × Value)) (stk : List BuildFrame) (h : okValPairs es = true)
    (hs : stk ≠ []) :
    runBuilder (toksPairs es ++ ts) .key acc stk
      = runBuilder ts .key ((entriesPairs es).reverse ++ acc) stk := by
  match es with
  | [] => simp [toksPairs, entriesPairs]
  | (kv, vv) :: es =>
      simp only [okValPairs, Bool.and_eq_true] at h
      simp only [toksPairs, List.append_assoc]
      rw [toks_keyShape kv h.1.1]
      simp only [List.singleton_append, run_key_str]
      rw [buildVal vv (keyStr kv) _ acc stk h.1.2, contMode_ne stk hs,
        buildPairs es ts _ stk h.2 hs]
      simp [entriesPairs]

/-- The builder consumes a legal struct body inside a group and appends its
entries. -/
theorem buildFields (fs : List (String × HostValue)) (ts : List NaiveToken)
    (acc : List (String × Value)) (stk : List BuildFrame) (h : okValFields fs = true)
    (hs : stk ≠ []) :
    runBuilder (toksFields fs ++ ts) .key acc stk
      = runBuilder ts .key ((entriesFields fs).reverse ++ acc) stk := by
  match fs with
  | [] => simp [toksFields, entriesFields]
  | (fn, fv) :: fs =>
      simp only [okValFields, Bool.and_eq_true] at h
      simp only [toksFields, List.cons_append, List.append_assoc, run_key_str]
      rw [buildVal fv fn _ acc stk h.1, contMode_ne stk hs, buildFields fs ts _ stk h.2 hs]
      simp [entriesFields]

end
/-- A key token followed by a legal value's tokens builds to exactly that
value's entries. -/
theorem build_toks (v : HostValue) (K : String) (h : okVal v = true) :
    build (.str K :: toks v) = .ok (entriesOf K v) := by
  unfold build
  rw [run_key_str]
  have hb := buildVal v K [] [] [] h
  rw [List.append_nil] at hb
  rw [hb]
  simp [contMode, runBuilder]

/-- With an explicit key and a non-struct, non-scalar top value, the
override pushes the key in front of the value's tokens. -/
theorem applyKey_toks (k : String) (v : HostValue) (hn : nonScalarTop v = true)
    (hs : isStructTop v = false) :
    applyKey (some k) (toks v) = .str k :: toks v := by
  match v with
  | .map es => simp [toks, applyKey]
  | .seq es => simp [toks, applyKey]
  | .opNone => simp [toks, applyKey]
  | .opSome v =>
      simp only [nonScalarTop] at hn
      simp only [isStructTop] at hs
      simpa [toks] using applyKey_toks k v hn hs
  | .newtypeStruct _ v =>
      simp only [nonScalarTop] at hn
      simp only [isStructTop] at hs
      simpa [toks] using applyKey_toks k v hn hs
  | .struct _ _ => simp [isStructTop] at hs
  | .bool _ | .int _ | .char _ | .str _ | .f32 _ | .f64 _ | .unitVariant _ _
  | .bytes _ | .unit | .unitStruct _ | .newtypeVariant _ _ _ | .tupleVariant _ _ _
  | .structVariant _ _ _ => simp [nonScalarTop] at hn

/-- Encode characterization: a legal top-level value encodes to exactly
its expected document. -/
theorem encode_docOf (v : HostValue) (key : Option String) (he : encOk v = true)
    (ho : okVal v = true) (ht : topOk key v = true) :
    encodeDoc v key = .ok (docOf key v) := by
  have hs := serialize_top v he
  match key with
  | none =>
      simp only [topOk] at ht
      have h1 : applyKey none (toksTop v) = .str (rootName v) :: toks v := by
        rw [toksTop_struct v ht]; rfl
      have h2 := build_toks v (rootName v) ho
      unfold encodeDoc
      simp only [hs, h1, h2, docOf]
  | some k =>
      simp only [topOk] at ht
      have h1 : applyKey (some k) (toksTop v) = .str k :: toks v := by
        by_cases hst : isStructTop v
        · rw [toksTop_struct v hst]; rfl
        · rw [toksTop_plain v (by simpa using hst)]
          exact applyKey_toks k v ht (by simpa using hst)
      have h2 := build_toks v k ho
      unfold encodeDoc
      simp only [hs, h1, h2, docOf]

/-- The fuel-based digit conversion computes the fuel-free digit list. -/
theorem toDigitsCore_natDigits (fuel : Nat) :
    ∀ n ds, n < fuel → Nat.toDigitsCore 10 fuel n ds = natDigits n ++ ds := by
  induction fuel with
  | zero => intro n ds h; omega
  | succ fuel ih =>
      intro n ds h
      rw [Nat.toDigitsCore]
      by_cases h10 : n < 10
      · have hz : n / 10 = 0 := Nat.div_eq_of_lt h10
        have hm : n % 10 = n := Nat.mod_eq_of_lt h10
        simp [hz, hm, natDigits, h10]
      · have hz : ¬(n / 10 = 0) := by omega
        simp only [hz, if_neg, if_false]
        rw [ih (n / 10) _ (by omega)]
        conv_rhs => rw [natDigits]
        rw [if_neg h10]
        simp

/-- `Nat.toDigits` in base ten is the fuel-free digit list. -/
theorem toDigits_eq_natDigits (n : Nat) : Nat.toDigits 10 n = natDigits n := by
  rw [Nat.toDigits, toDigitsCore_natDigits (n + 1) n [] (by omega), List.append_nil]

/-- Parsing one decimal digit character gives back the digit. -/
theorem digitVal_digitChar (d : Nat) (h : d < 10) :
    digitVal (Nat.digitChar d) = some d := by
  interval_cases d <;> rfl

/-- A decimal digit character is not a minus sign. -/
theorem digitChar_ne_minus (d : Nat) (h : d < 10) : Nat.digitChar d ≠ '-' := by
  interval_cases d <;> decide

/-- Parsing distributes over list append. -/
theorem parseNatChars_append (l1 l2 : List Char) (acc : Nat) :
    parseNatChars (l1 ++ l2) acc
      = match parseNatChars l1 acc with
        | some a => parseNatChars l2 a
        | none => none := by
  induction l1 generalizing acc with
  | nil => simp [parseNatChars]
  | cons c l1 ih =>
      simp only [List.cons_append, parseNatChars]
      match digitVal c with
      | some d => simp [ih]
      | none => simp

/-- Parsing the digit list of `n` starting from `acc` appends `n` to the
shifted accumulator. -/
theorem parseNatChars_natDigits (n : Nat) :
    ∀ acc, parseNatChars (natDigits n) acc
      = some (acc * 10 ^ (natDigits n).length + n) := by
  by_cases h10 : n < 10
  · intro acc
    rw [natDigits, if_pos h10]
    simp [parseNatChars, digitVal_digitChar n h10]
  · intro acc
    rw [natDigits, if_neg h10]
    rw [parseNatChars_append]
    rw [parseNatChars_natDigits (n / 10) acc]
    simp only [parseNatChars, digitVal_digitChar (n % 10) (by omega)]
    rw [List.length_append]
    congr 1
    have hp : (10 : Nat) ^ ((natDigits (n / 10)).length + [Nat.digitChar (n % 10)].length)
        = 10 ^ (natDigits (n / 10)).length * 10 := by
      simp [pow_succ]
    rw [hp]
    have hn : n / 10 * 10 + n % 10 = n := by omega
    calc (acc * 10 ^ (natDigits (n / 10)).length + n / 10) * 10 + n % 10
        = acc * (10 ^ (natDigits (n / 10)).length * 10) + (n / 10 * 10 + n % 10) := by ring
      _ = acc * (10 ^ (natDigits (n / 10)).length * 10) + n := by rw [hn]
decreasing_by exact Nat.div_lt_self (by omega) (by omega)

/-- Every character in a digit list is a digit character. -/
theorem natDigits_chars (n : Nat) :
    ∀ c ∈ natDigits n, ∃ d, d < 10 ∧ c = Nat.digitChar d := by
  by_cases h10 : n < 10
  · rw [natDigits, if_pos h10]
    intro c hc
    simp at hc
    exact ⟨n, h10, hc⟩
  · rw [natDigits, if_neg h10]
    intro c hc
    rw [List.mem_append] at hc
    cases hc with
    | inl hc => exact natDigits_chars (n / 10) c hc
    | inr hc =>
        simp at hc
        exact ⟨n % 10, by omega, hc⟩
decreasing_by exact Nat.div_lt_self (by omega) (by omega)

/-- The digit list of a natural number is non-empty. -/
theorem natDigits_ne_nil (n : Nat) : natDigits n ≠ [] := by
  rw [natDigits]
  split <;> simp

/-- Parsing the decimal rendering of an integer gives it back: the
deserializer bridge's integer parse inverts the serializer's `to_string`. -/
theorem parseInt_toString (n : Int) : parseInt (toString n) = some n := by
  match n with
  | .ofNat m =>
      have hds : (toString (Int.ofNat m)).data = natDigits m := by
        show (Nat.repr m).data = natDigits m
        rw [Nat.repr, toDigits_eq_natDigits]
        simp [List.asString]
      rw [parseInt, hds]
      cases he : natDigits m with
      | nil => exact absurd he (natDigits_ne_nil m)
      | cons c cs =>
          obtain ⟨d, hd, hc⟩ := natDigits_chars m c (by rw [he]; exact List.mem_cons_self c cs)
          have hcm : ¬(c = '-') := by rw [hc]; exact digitChar_ne_minus d hd
          simp only [if_neg hcm]
          have hp := parseNatChars_natDigits m 0
          rw [he] at hp
          rw [hp]
          simp [Int.ofNat_eq_coe]
  | .negSucc m =>
      have hds : (toString (Int.negSucc m)).data = '-' :: natDigits (m + 1) := by
        show ("-" ++ Nat.repr (m + 1)).data = _
        rw [String.data_append, Nat.repr, toDigits_eq_natDigits]
        simp [List.asString]
      rw [parseInt, hds]
      simp only [if_pos rfl]
      have hne := natDigits_ne_nil (m + 1)
      have hie : (natDigits (m + 1)).isEmpty = false := by
        cases h : natDigits (m + 1) with
        | nil => exact absurd h hne
        | cons c cs => rfl
      rw [hie]
      simp only [Bool.false_eq_true, if_neg, if_false]
      rw [parseNatChars_natDigits (m + 1) 0]
      simp only [Option.map_some', zero_mul, zero_add]
      congr 1

/-- A key-shaped value is a plain sequence element. -/
theorem keyShape_plainElem (v : HostValue) (h : keyShape v = true) : plainElem v = true := by
  induction v using keyShape.induct <;> simp_all [keyShape, plainElem]

/-- Filtering a value's entries by its own key keeps them all. -/
theorem filter_entriesOf_self (k : String) (v : HostValue) :
    (entriesOf k v).filter (fun e => e.1 = k) = entriesOf k v := by
  rw [List.filter_eq_self]
  intro e he
  simpa using entriesOf_keys k v e he

/-- Filtering a value's entries by a different key drops them all. -/
theorem filter_entriesOf_ne (k fn : String) (v : HostValue) (h : k ≠ fn) :
    (entriesOf k v).filter (fun e => e.1 = fn) = [] := by
  rw [List.filter_eq_nil_iff]
  intro e he
  have hk := entriesOf_keys k v e he
  simp [hk, h]

/-- A field name absent from a struct body matches none of its entries. -/
theorem filter_entriesFields_none (fs : List (String × HostValue)) (fn : String)
    (h : fn ∉ fs.map Prod.fst) :
    (entriesFields fs).filter (fun e => e.1 = fn) = [] := by
  induction fs with
  | nil => simp [entriesFields]
  | cons p fs ih =>
      obtain ⟨fn0, fv0⟩ := p
      simp only [List.map_cons, List.mem_cons, not_or] at h
      simp only [entriesFields, List.filter_append]
      rw [filter_entriesOf_ne fn0 fn fv0 (fun hc => h.1 hc.symm), List.nil_append]
      exact ih h.2

/-- With distinct field names, filtering the struct body by one declared
name yields exactly that field's entries. -/
theorem filter_entriesFields (fs : List (String × HostValue)) (fn : String) (fv : HostValue)
    (hnd : (fs.map Prod.fst).Nodup) (hmem : (fn, fv) ∈ fs) :
    (entriesFields fs).filter (fun e => e.1 = fn) = entriesOf fn fv := by
  induction fs with
  | nil => cases hmem
  | cons p fs ih =>
      obtain ⟨fn0, fv0⟩ := p
      simp only [List.map_cons, List.nodup_cons] at hnd
      simp only [entriesFields, List.filter_append]
      rcases List.mem_cons.mp hmem with heq | hmem'
      · obtain ⟨h1, h2⟩ := Prod.mk.injEq .. ▸ heq
        subst h1 h2
        rw [filter_entriesOf_self, filter_entriesFields_none fs fn hnd.1, List.append_nil]
      · have hne : fn0 ≠ fn := by
          intro hc
          exact hnd.1 (hc ▸ List.mem_map_of_mem Prod.fst hmem')
        rw [filter_entriesOf_ne fn0 fn fv0 hne, List.nil_append]
        exact ih hnd.2 hmem'

/-- The first run of a non-empty entry list carries the first entry's
key. -/
theorem runsBy_head (e : String × Value) (rest : List (String × Value)) :
    ∃ vs runs, runsBy (e :: rest) = (e.1, vs) :: runs := by
  obtain ⟨k, v⟩ := e
  simp only [runsBy]
  match runsBy rest with
  | [] => exact ⟨[v], [], rfl⟩
  | (k', vs) :: runs =>
      by_cases h : k = k'
      · subst h
        exact ⟨v :: vs, runs, by simp⟩
      · exact ⟨[v], (k', vs) :: runs, by simp [h]⟩

/-- A non-empty block of uniformly keyed entries, followed by entries whose
first key differs, forms one run. -/
theorem runsBy_block (k : String) (block rest : List (String × Value))
    (hb : block ≠ []) (hkeys : ∀ e ∈ block, e.1 = k)
    (hrest : ∀ e ∈ rest.head?, e.1 ≠ k) :
    runsBy (block ++ rest) = (k, block.map Prod.snd) :: runsBy rest := by
  match block with
  | [e] =>
      obtain ⟨ke, ve⟩ := e
      have hk : ke = k := hkeys (ke, ve) (by simp)
      subst hk
      match rest with
      | [] => simp [runsBy]
      | r :: rest' =>
          obtain ⟨vs, runs, hr⟩ := runsBy_head r rest'
          have hne : r.1 ≠ ke := hrest r (by simp)
          rw [List.singleton_append]
          conv_lhs => rw [runsBy]
          rw [hr]
          simp [if_neg (Ne.symm hne)]
  | e :: e' :: block' =>
      obtain ⟨ke, ve⟩ := e
      have hk : ke = k := hkeys (ke, ve) (by simp)
      subst hk
      have hih := runsBy_block ke (e' :: block') rest (by simp)
        (fun x hx => hkeys x (List.mem_cons_of_mem _ hx)) hrest
      simp only [List.cons_append] at hih ⊢
      conv_lhs => rw [runsBy]
      rw [hih]
      simp

/-- Every entry of a map body carries the serialized key of one of its
pairs. -/
theorem entriesPairs_keys (es : List (HostValue × HostValue)) :
    ∀ e ∈ entriesPairs es, ∃ p ∈ es, e.1 = keyStr p.1 := by
  induction es with
  | nil => simp [entriesPairs]
  | cons p es ih =>
      obtain ⟨kv, vv⟩ := p
      intro e he
      rw [entriesPairs, List.mem_append] at he
      cases he with
      | inl he => exact ⟨(kv, vv), by simp, entriesOf_keys (keyStr kv) vv e he⟩
      | inr he =>
          obtain ⟨q, hq, hk⟩ := ih e he
          exact ⟨q, List.mem_cons_of_mem _ hq, hk⟩

/-- The runs of a legal map body are exactly its pairs, keyed by their
serialized keys. -/
theorem runsBy_entriesPairs (es : List (HostValue × HostValue))
    (hnd : (es.map (fun p => keyStr p.1)).Nodup)
    (hsafe : roundSafePairs es = true) :
    runsBy (entriesPairs es)
      = es.map (fun p => (keyStr p.1, (entriesOf (keyStr p.1) p.2).map Prod.snd)) := by
  induction es with
  | nil => simp [entriesPairs, runsBy]
  | cons p es ih =>
      obtain ⟨kv, vv⟩ := p
      simp only [roundSafePairs, Bool.and_eq_true, Bool.not_eq_true'] at hsafe
      simp only [List.map_cons, List.nodup_cons] at hnd
      rw [entriesPairs, runsBy_block (keyStr kv) _ _
        (entriesOf_nonvanishing (keyStr kv) vv hsafe.1.2.1)
        (entriesOf_keys (keyStr kv) vv) ?hrest]
      · rw [ih hnd.2 hsafe.2]
        simp
      case hrest =>
        intro e he
        have hmem := List.mem_of_mem_head? he
        obtain ⟨q, hq, hk⟩ := entriesPairs_keys es e hmem
        rw [hk]
        intro hc
        exact hnd.1 (hc ▸ List.mem_map_of_mem (fun p => keyStr p.1) hq)

/-- One-step equations of the field decoder, one per type arm. -/
theorem df_bool (s : String) (rest : List Value) :
    decodeField .bool (.scalar s :: rest)
      = (if s = "1" then some (.bool true) else if s = "0" then some (.bool false)
        else none) := rfl

theorem df_int (s : String) (rest : List Value) :
    decodeField .int (.scalar s :: rest) = (parseInt s).map .int := rfl

theorem df_char (s : String) (rest : List Value) :
    decodeField .char (.scalar s :: rest)
      = (match s.data with | [c] => some (.char c) | _ => none) := rfl

theorem df_str (s : String) (rest : List Value) :
    decodeField .str (.scalar s :: rest) = some (.str s) := rfl

theorem df_f32 (s : String) (rest : List Value) :
    decodeField .f32 (.scalar s :: rest) = some (.f32 ⟨true, s⟩) := rfl

theorem df_f64 (s : String) (rest : List Value) :
    decodeField .f64 (.scalar s :: rest) = some (.f64 ⟨⟨true, s⟩, ""⟩) := rfl

theorem df_enum (n : String) (vars : List String) (s : String) (rest : List Value) :
    decodeField (.enumT n vars) (.scalar s :: rest)
      = (if s ∈ vars then some (.unitVariant n s) else none) := rfl

theorem df_option_nil (t : HostTy) : decodeField (.option t) [] = some .opNone := rfl

theorem df_option_cons (t : HostTy) (v : Value) (vs : List Value) :
    decodeField (.option t) (v :: vs) = (decodeField t (v :: vs)).map .opSome := rfl

theorem df_newtype (n : String) (t : HostTy) (vs : List Value) :
    decodeField (.newtypeStruct n t) vs = (decodeField t vs).map (.newtypeStruct n) := by
  cases vs <;> rfl

theorem df_seq (t : HostTy) (vs : List Value) :
    decodeField (.seq t) vs = (vs.mapM (fun v => decodeField t [v])).map .seq := by
  cases vs <;> rfl

theorem df_struct (n : String) (fts : List (String × HostTy)) (es : List (String × Value)) :
    decodeField (.struct n fts) [.group es] = (decodeFields fts es).map (.struct n) := rfl

theorem df_map (kt vt : HostTy) (es : List (String × Value)) :
    decodeField (.map kt vt) [.group es]
      = ((runsBy es).mapM (fun r =>
          (decodeField kt [.scalar r.1]).bind (fun hk =>
            (decodeField vt r.2).map (fun hv => (hk, hv))))).map .map := rfl

/-- A key shape is a legal value. -/
theorem keyShape_okVal (v : HostValue) (h : keyShape v = true) : okVal v = true := by
  induction v using keyShape.induct <;> simp_all [keyShape, okVal]

mutual

/-- Decode correspondence: decoding the AST values that a well-typed,
encodable, builder-legal, round-trip-safe value contributes under any key
recovers the value, with 64-bit floats narrowed. -/
theorem decodeVal_entriesOf (t : HostTy) (v : HostValue) (k : String)
    (hwf : wf t v = true) (he : encOk v = true) (ho : okVal v = true)
    (hs : roundSafe v = true) :
    decodeField t ((entriesOf k v).map Prod.snd) = some (narrow v) := by
  cases t with
  | bool =>
      cases v <;> (try exact Bool.noConfusion hwf)
      rename_i b
      cases b <;> rfl
  | int =>
      cases v <;> (try exact Bool.noConfusion hwf)
      rename_i n
      show decodeField .int [.scalar (toString n)] = some (.int n)
      rw [df_int, parseInt_toString]
      rfl
  | char =>
      cases v <;> (try exact Bool.noConfusion hwf)
      rename_i c
      show decodeField .char [.scalar (String.singleton c)] = some (.char c)
      rw [df_char]
      have hd : (String.singleton c).data = [c] := by simp [String.singleton, String.push]
      rw [hd]
  | str =>
      cases v <;> (try exact Bool.noConfusion hwf)
      rfl
  | f32 =>
      cases v <;> (try exact Bool.noConfusion hwf)
      rename_i w
      obtain ⟨fin, dec⟩ := w
      replace he : fin = true := he
      subst he
      rfl
  | f64 =>
      cases v <;> (try exact Bool.noConfusion hwf)
      rename_i w
      obtain ⟨⟨fin, dec⟩, ex⟩ := w
      replace he : fin = true := he
      subst he
      rfl
  | enumT n vars =>
      cases v <;> (try exact Bool.noConfusion hwf)
      rename_i n' var
      replace hwf : (decide (n = n') && decide (var ∈ vars)) = true := hwf
      simp only [Bool.and_eq_true, decide_eq_true_eq] at hwf
      obtain ⟨hn, hv⟩ := hwf
      subst hn
      show decodeField (.enumT n vars) [.scalar var] = some (.unitVariant n var)
      rw [df_enum, if_pos hv]
  | option t =>
      cases v <;> (try exact Bool.noConfusion hwf)
      · rfl
      · rename_i v'
        replace hwf : wf t v' = true := hwf
        replace he : encOk v' = true := he
        replace ho : okVal v' = true := ho
        replace hs : (!vanishes v' && roundSafe v') = true := hs
        simp only [Bool.and_eq_true, Bool.not_eq_true'] at hs
        have hne := entriesOf_nonvanishing k v' hs.1
        cases hE : entriesOf k v' with
        | nil => exact absurd hE hne
        | cons e es =>
            show decodeField (.option t) ((entriesOf k v').map Prod.snd)
              = some (.opSome (narrow v'))
            have hrec := decodeVal_entriesOf t v' k hwf he ho hs.2
            rw [hE] at hrec ⊢
            simp only [List.map_cons] at hrec ⊢
            rw [df_option_cons, hrec]
            rfl
  | seq t =>
      cases v <;> (try exact Bool.noConfusion hwf)
      rename_i es
      replace hwf : wfList t es = true := hwf
      replace he : encOkList es = true := he
      replace ho : okValList es = true := ho
      replace hs : roundSafeList es = true := hs
      show decodeField (.seq t) ((entriesSeq k es).map Prod.snd)
        = some (.seq (narrowList es))
      rw [df_seq, decodeSeq_entries t es k hwf he ho hs]
      rfl
  | map kt vt =>
      cases v <;> (try exact Bool.noConfusion hwf)
      rename_i es
      replace hwf : wfPairs kt vt es = true := hwf
      replace he : encOkPairs es = true := he
      replace ho : okValPairs es = true := ho
      replace hs : (decide ((es.map (fun p => keyStr p.1)).Nodup)
        && roundSafePairs es) = true := hs
      simp only [Bool.and_eq_true, decide_eq_true_eq] at hs
      show decodeField (.map kt vt) [.group (entriesPairs es)]
        = some (.map (narrowPairs es))
      rw [df_map, runsBy_entriesPairs es hs.1 hs.2,
        decodeRuns_pairs kt vt es hwf he ho hs.2]
      rfl
  | struct n fts =>
      cases v <;> (try exact Bool.noConfusion hwf)
      rename_i n' fs
      replace hwf : (decide (n = n') && wfFields fts fs) = true := hwf
      simp only [Bool.and_eq_true, decide_eq_true_eq] at hwf
      obtain ⟨hn, hwf⟩ := hwf
      subst hn
      replace he : encOkFields fs = true := he
      replace ho : okValFields fs = true := ho
      replace hs : (decide ((fs.map Prod.fst).Nodup) && roundSafeFields fs) = true := hs
      simp only [Bool.and_eq_true, decide_eq_true_eq] at hs
      show decodeField (.struct n fts) [.group (entriesFields fs)]
        = some (.struct n (narrowFields fs))
      rw [df_struct, decodeFields_entries fts fs (entriesFields fs) hwf he ho hs.2
        (fun fn fv hmem => filter_entriesFields fs fn fv hs.1 hmem)]
      rfl
  | newtypeStruct n t =>
      cases v <;> (try exact Bool.noConfusion hwf)
      rename_i n' v'
      replace hwf : (decide (n = n') && wf t v') = true := hwf
      simp only [Bool.and_eq_true, decide_eq_true_eq] at hwf
      obtain ⟨hn, hwf⟩ := hwf
      subst hn
      replace he : encOk v' = true := he
      replace ho : okVal v' = true := ho
      replace hs : roundSafe v' = true := hs
      show decodeField (.newtypeStruct n t) ((entriesOf k v').map Prod.snd)
        = some (.newtypeStruct n (narrow v'))
      rw [df_newtype, decodeVal_entriesOf t v' k hwf he ho hs]
      rfl
termination_by sizeOf v

/-- Decode correspondence for the elements of a sequence. -/
theorem decodeSeq_entries (t : HostTy) (es : List HostValue) (k : String)
    (hwf : wfList t es = true) (he : encOkList es = true) (ho : okValList es = true)
    (hs : roundSafeList es = true) :
    ((entriesSeq k es).map Prod.snd).mapM (fun v => decodeField t [v])
      = some (narrowList es) := by
  match es with
  | [] => rfl
  | e :: es =>
      replace hwf : (wf t e && wfList t es) = true := hwf
      replace he : (encOk e && encOkList es) = true := he
      replace ho : (okVal e && plainElem e && okValList es) = true := ho
      replace hs : (roundSafe e && roundSafeList es) = true := hs
      simp only [Bool.and_eq_true] at hwf he ho hs
      have h1 : decodeField t [valOf e] = some (narrow e) := by
        have hpe := entriesOf_plainElem k e ho.1.2
        have hrec := decodeVal_entriesOf t e k hwf.1 he.1 ho.1.1 hs.1
        rw [hpe] at hrec
        simp only [List.map_cons, List.map_nil] at hrec
        exact hrec
      show ((((k, valOf e) :: entriesSeq k es).map Prod.snd).mapM
        (fun v => decodeField t [v])) = some (narrowList (e :: es))
      simp only [List.map_cons, List.mapM_cons, h1,
        decodeSeq_entries t es k hwf.2 he.2 ho.2 hs.2]
      rfl
termination_by sizeOf es

/-- Decode correspondence for the runs of a map body. -/
theorem decodeRuns_pairs (kt vt : HostTy) (es : List (HostValue × HostValue))
    (hwf : wfPairs kt vt es = true) (he : encOkPairs es = true)
    (ho : okValPairs es = true) (hs : roundSafePairs es = true) :
    (es.map (fun p => (keyStr p.1, (entriesOf (keyStr p.1) p.2).map Prod.snd))).mapM
        (fun r => (decodeField kt [.scalar r.1]).bind (fun hk =>
          (decodeField vt r.2).map (fun hv => (hk, hv))))
      = some (narrowPairs es) := by
  match es with
  | [] => rfl
  | (kv, vv) :: es =>
      replace hwf : (wf kt kv && wf vt vv && wfPairs kt vt es) = true := hwf
      replace he : (encOk kv && encOk vv && encOkPairs es) = true := he
      replace ho : (keyShape kv && okVal vv && okValPairs es) = true := ho
      replace hs : (roundSafe kv && (!vanishes vv && roundSafe vv)
        && roundSafePairs es) = true := hs
      simp only [Bool.and_eq_true, Bool.not_eq_true'] at hwf he ho hs
      have hk : decodeField kt [.scalar (keyStr kv)] = some (narrow kv) := by
        have hvk := valOf_keyShape kv ho.1.1
        have hpe := entriesOf_plainElem (keyStr kv) kv (keyShape_plainElem kv ho.1.1)
        have hrec := decodeVal_entriesOf kt kv (keyStr kv) hwf.1.1 he.1.1
          (keyShape_okVal kv ho.1.1) hs.1.1
        rw [hpe] at hrec
        simp only [List.map_cons, List.map_nil] at hrec
        rw [hvk] at hrec
        exact hrec
      have hvv : decodeField vt ((entriesOf (keyStr kv) vv).map Prod.snd)
          = some (narrow vv) :=
        decodeVal_entriesOf vt vv (keyStr kv) hwf.1.2 he.1.2 ho.1.2 hs.1.2.2
      simp only [List.map_cons, List.mapM_cons, hk, hvv, Option.bind_some,
        decodeRuns_pairs kt vt es hwf.2 he.2 ho.2 hs.2]
      rfl
termination_by sizeOf es

/-- Decode correspondence for a struct's declared fields against entries
whose per-name filters are the fields' own entries. -/
theorem decodeFields_entries (fts : List (String × HostTy)) (fs : List (String × HostValue))
    (ES : List (String × Value)) (hwf : wfFields fts fs = true)
    (he : encOkFields fs = true) (ho : okValFields fs = true)
    (hs : roundSafeFields fs = true)
    (hfilter : ∀ fn fv, (fn, fv) ∈ fs → ES.filter (fun e => e.1 = fn) = entriesOf fn fv) :
    decodeFields fts ES = some (narrowFields fs) := by
  match fts, fs with
  | [], [] => rfl
  | [], _ :: _ => exact Bool.noConfusion hwf
  | _ :: _, [] => exact Bool.noConfusion hwf
  | (fn, ft) :: fts, (fn', fv) :: fs =>
      replace hwf : (decide (fn = fn') && wf ft fv && wfFields fts fs) = true := hwf
      simp only [Bool.and_eq_true, decide_eq_true_eq] at hwf
      obtain ⟨⟨hn, hwf1⟩, hwf2⟩ := hwf
      subst hn
      replace he : (encOk fv && encOkFields fs) = true := he
      replace ho : (okVal fv && okValFields fs) = true := ho
      replace hs : (roundSafe fv && roundSafeFields fs) = true := hs
      simp only [Bool.and_eq_true] at he ho hs
      have hd : decodeField ft ((ES.filter (fun e => e.1 = fn)).map Prod.snd)
          = some (narrow fv) := by
        rw [hfilter fn fv (by simp)]
        exact decodeVal_entriesOf ft fv fn hwf1 he.1 ho.1 hs.1
      rw [decodeFields, hd,
        decodeFields_entries fts fs ES hwf2 he.2 ho.2 hs.2
          (fun gn gv hmem => hfilter gn gv (List.mem_cons_of_mem _ hmem))]
      rfl
termination_by sizeOf fs

end

/-- `decodeField` on a document's values equals the entry-wise decode the
root decoder performs on a sequence document. -/
theorem mapM_snd_decode (t : HostTy) (es : List (String × Value)) :
    es.mapM (fun e => decodeField t [e.2])
      = (es.map Prod.snd).mapM (fun v => decodeField t [v]) := by
  induction es with
  | nil => rfl
  | cons e es ih => simp only [List.map_cons, List.mapM_cons, ih]

/-- Root-decode step: an optional type over a non-empty document. -/
theorem dr_option_cons (t : HostTy) (e : String × Value) (es : List (String × Value)) :
    decodeRoot (.option t) (e :: es) = (decodeRoot t (e :: es)).map .opSome := by
  obtain ⟨a, b⟩ := e
  match es with
  | [] => rfl
  | ⟨c, d⟩ :: rest => rfl

/-- Root-decode step: a newtype struct delegates to its payload type. -/
theorem dr_newtype (n : String) (t : HostTy) (es : Doc) :
    decodeRoot (.newtypeStruct n t) es = (decodeRoot t es).map (.newtypeStruct n) := by
  match es with
  | [] => rfl
  | [⟨a, b⟩] => rfl
  | ⟨a, b⟩ :: ⟨c, d⟩ :: rest => rfl

/-- Root-decode step: a sequence type collects every root entry. -/
theorem dr_seq (t : HostTy) (es : Doc) :
    decodeRoot (.seq t) es = (es.mapM (fun e => decodeField t [e.2])).map .seq := by
  match es with
  | [] => rfl
  | [⟨a, b⟩] => rfl
  | ⟨a, b⟩ :: ⟨c, d⟩ :: rest => rfl

/-- Decode correspondence at the document root: for a top-level shape that
encodes to a well-formed document, root-decoding the document the value
encodes to recovers the value (floats narrowed). -/
theorem decodeRoot_docOf (t : HostTy) (v : HostValue) (key : Option String)
    (hwf : wf t v = true) (he : encOk v = true) (ho : okVal v = true)
    (hs : roundSafe v = true) (ht : topOk key v = true) :
    decodeRoot t (docOf key v) = some (narrow v) := by
  cases key with
  | none =>
      cases v <;> (try exact Bool.noConfusion ht)
      case struct n' fs =>
          cases t <;> (try exact Bool.noConfusion hwf)
          rename_i n fts
          exact decodeVal_entriesOf (.struct n fts) (.struct n' fs)
            (rootName (.struct n' fs)) hwf he ho hs
      case opSome v' =>
          cases t <;> (try exact Bool.noConfusion hwf)
          rename_i t'
          replace hwf : wf t' v' = true := hwf
          replace he : encOk v' = true := he
          replace ho : okVal v' = true := ho
          replace hs : (!vanishes v' && roundSafe v') = true := hs
          simp only [Bool.and_eq_true, Bool.not_eq_true'] at hs
          replace ht : topOk none v' = true := ht
          have hrec := decodeRoot_docOf t' v' none hwf he ho hs.2 ht
          replace hrec : decodeRoot t' (entriesOf (rootName v') v') = some (narrow v') := hrec
          have hne := entriesOf_nonvanishing (rootName v') v' hs.1
          show decodeRoot (.option t') (entriesOf (rootName v') v')
            = some (.opSome (narrow v'))
          cases hE : entriesOf (rootName v') v' with
          | nil => exact absurd hE hne
          | cons e es =>
              rw [hE] at hrec
              rw [dr_option_cons, hrec]
              rfl
      case newtypeStruct n' v' =>
          cases t <;> (try exact Bool.noConfusion hwf)
          rename_i n t'
          replace hwf : (decide (n = n') && wf t' v') = true := hwf
          simp only [Bool.and_eq_true, decide_eq_true_eq] at hwf
          obtain ⟨hn, hwf⟩ := hwf
          subst hn
          replace he : encOk v' = true := he
          replace ho : okVal v' = true := ho
          replace hs : roundSafe v' = true := hs
          replace ht : topOk none v' = true := ht
          have hrec := decodeRoot_docOf t' v' none hwf he ho hs ht
          replace hrec : decodeRoot t' (entriesOf (rootName v') v') = some (narrow v') := hrec
          show decodeRoot (.newtypeStruct n t') (entriesOf (rootName v') v')
            = some (.newtypeStruct n (narrow v'))
          rw [dr_newtype, hrec]
          rfl
  | some k =>
      cases v <;> (try exact Bool.noConfusion ht)
      case opNone =>
          cases t <;> (try exact Bool.noConfusion hwf)
          rfl
      case struct n' fs =>
          cases t <;> (try exact Bool.noConfusion hwf)
          rename_i n fts
          exact decodeVal_entriesOf (.struct n fts) (.struct n' fs) k hwf he ho hs
      case map es =>
          cases t <;> (try exact Bool.noConfusion hwf)
          rename_i kt vt
          exact decodeVal_entriesOf (.map kt vt) (.map es) k hwf he ho hs
      case seq es =>
          cases t <;> (try exact Bool.noConfusion hwf)
          rename_i t'
          replace hwf : wfList t' es = true := hwf
          replace he : encOkList es = true := he
          replace ho : okValList es = true := ho
          replace hs : roundSafeList es = true := hs
          show decodeRoot (.seq t') (entriesSeq k es) = some (.seq (narrowList es))
          rw [dr_seq, mapM_snd_decode, decodeSeq_entries t' es k hwf he ho hs]
          rfl
      case opSome v' =>
          cases t <;> (try exact Bool.noConfusion hwf)
          rename_i t'
          replace hwf : wf t' v' = true := hwf
          replace he : encOk v' = true := he
          replace ho : okVal v' = true := ho
          replace hs : (!vanishes v' && roundSafe v') = true := hs
          simp only [Bool.and_eq_true, Bool.not_eq_true'] at hs
          replace ht : topOk (some k) v' = true := ht
          have hrec := decodeRoot_docOf t' v' (some k) hwf he ho hs.2 ht
          replace hrec : decodeRoot t' (entriesOf k v') = some (narrow v') := hrec
          have hne := entriesOf_nonvanishing k v' hs.1
          show decodeRoot (.option t') (entriesOf k v') = some (.opSome (narrow v'))
          cases hE : entriesOf k v' with
          | nil => exact absurd hE hne
          | cons e es =>
              rw [hE] at hrec
              rw [dr_option_cons, hrec]
              rfl
      case newtypeStruct n' v' =>
          cases t <;> (try exact Bool.noConfusion hwf)
          rename_i n t'
          replace hwf : (decide (n = n') && wf t' v') = true := hwf
          simp only [Bool.and_eq_true, decide_eq_true_eq] at hwf
          obtain ⟨hn, hwf⟩ := hwf
          subst hn
          replace he : encOk v' = true := he
          replace ho : okVal v' = true := ho
          replace hs : roundSafe v' = true := hs
          replace ht : topOk (some k) v' = true := ht
          have hrec := decodeRoot_docOf t' v' (some k) hwf he ho hs ht
          replace hrec : decodeRoot t' (entriesOf k v') = some (narrow v') := hrec
          show decodeRoot (.newtypeStruct n t') (entriesOf k v')
            = some (.newtypeStruct n (narrow v'))
          rw [dr_newtype, hrec]
          rfl
termination_by sizeOf v

/-- C1: for a value meeting the claim's exclusions that is also well typed,
builder-legal, round-trip-safe and of a top-level shape that encodes to a
well-formed document, decode inverts encode up to float narrowing. -/
theorem c1_round_trip (t : HostTy) (v : HostValue) (key : Option String)
    (hwf : wf t v = true) (he : encOk v = true) (ho : okVal v = true)
    (hs : roundSafe v = true) (ht : topOk key v = true) :
    encodeDoc v key = .ok (docOf key v) ∧
      decodeRoot t (docOf key v) = some (narrow v) :=
  ⟨encode_docOf v key he ho ht, decodeRoot_docOf t v key hwf he ho hs ht⟩

/-- C1 counterexample: a present optional wrapping an absent optional meets
every exclusion the claim states, encodes successfully, yet decodes to the
absent optional, not to itself. -/
theorem c1_round_trip_counterexample :
    wf (.option (.option .int)) (.opSome .opNone) = true ∧
    encOk (.opSome .opNone) = true ∧
    okVal (.opSome .opNone) = true ∧
    topOk (some "num") (.opSome .opNone) = true ∧
    encodeDoc (.opSome .opNone) (some "num") = .ok [] ∧
    decodeRoot (.option (.option .int)) [] = some .opNone ∧
    some HostValue.opNone ≠ some (narrow (.opSome .opNone)) := by
  refine ⟨rfl, rfl, rfl, rfl, rfl, rfl, ?_⟩
  intro h
  injection h with h
  exact HostValue.noConfusion h

/-- C1 witness: the round trip at a struct exercising every supported
shape. -/
theorem c1_round_trip_witness :
    encodeDoc kitchenVal none = .ok (docOf none kitchenVal) ∧
    decodeRoot kitchenTy (docOf none kitchenVal) = some (narrow kitchenVal) :=
  c1_round_trip kitchenTy kitchenVal none rfl rfl rfl rfl rfl

/-- Every successful serializer entry point pushes at least one token:
on success the accumulated stream grows strictly, for the value walk and
for all three aggregate walks. -/
theorem serialize_grows :
    (∀ v ts, (serialize v ts).2 = none → ts.length < (serialize v ts).1.length) ∧
    (∀ fs ts, (serializeFields fs ts).2 = none → ts.length < (serializeFields fs ts).1.length) ∧
    (∀ es ts, (serializeMapEntries es ts).2 = none → ts.length < (serializeMapEntries es ts).1.length) ∧
    (∀ es ts, (serializeElems es ts).2 = none → ts.length < (serializeElems es ts).1.length) := by
  apply serialize.mutual_induct
  case case18 =>
    intro name fs ts ih h
    simp only [serialize] at h ⊢
    have h2 := ih h
    by_cases he : ts.isEmpty <;> simp [he] at h2 ⊢ <;> omega
  all_goals (intros <;>
    (try simp only [serialize, serializeF32, serializeElems, serializeMapEntries,
      serializeFields] at *) <;>
    (try split_ifs at *) <;> (try simp_all) <;> (try omega))

/-- A token stream the builder accepts starts with a `Str` token. -/
theorem build_ok_head (ts : List NaiveToken) (d : Doc) (h : build ts = .ok d) :
    ∃ s rest, ts = .str s :: rest := by
  match ts with
  | [] => simp [build, runBuilder] at h
  | .str s :: rest => exact ⟨s, rest, rfl⟩
  | .objBegin :: rest => simp [build, runBuilder] at h
  | .objEnd :: rest => simp [build, runBuilder] at h
  | .seqBegin :: rest => simp [build, runBuilder] at h
  | .seqEnd :: rest => simp [build, runBuilder] at h
  | .null :: rest => simp [build, runBuilder] at h

/-- C2: Encoding the top-level integer `42` with the explicit root key
`"num"` does not succeed: the serializer emits the single token
`Str "42"`, the root-key override replaces that token (its first-is-`Str`
branch cannot tell a bare scalar from a key), leaving `[Str "num"]`, and
the builder then fails with the value-expected-at-eof error.  The claimed
document `num -> "42"` is never produced. -/
theorem c2_encode_int_with_key :
    serialize (.int 42) [] = ([.str "42"], none) ∧
    applyKey (some "num") [.str "42"] = [.str "num"] ∧
    build [.str "num"] = .error .eofWhileParsingVal ∧
    encodeDoc (.int 42) (some "num")
      = .error (.keyvalues (.invalidTokenStream .eofWhileParsingVal)) :=
  ⟨rfl, rfl, rfl, rfl⟩

/-- C4: Encoding the struct `root { a: 1, b: true }` with no explicit key
pushes `Str "root"` as implicit root key before the field map, serializes
the boolean as `"1"` (and `false` as `"0"`), and yields the document with
root key `"root"` and a group with entries `a -> "1"` and `b -> "1"` in
order. -/
theorem c4_struct_implicit_key :
    serialize (.struct "root" [("a", .int 1), ("b", .bool true)]) []
      = ([.str "root", .objBegin, .str "a", .str "1", .str "b", .str "1", .objEnd], none) ∧
    encodeDoc (.struct "root" [("a", .int 1), ("b", .bool true)]) none
      = .ok [("root", .group [("a", .scalar "1"), ("b", .scalar "1")])] ∧
    serialize (.bool true) [] = ([.str "1"], none) ∧
    serialize (.bool false) [] = ([.str "0"], none) :=
  ⟨rfl, rfl, rfl, rfl⟩

/-- C5: Serializing a 32-bit float emits `Str` of its decimal form and
succeeds exactly when the float is finite, fails with the non-finite-float
error emitting no token otherwise; serializing a 64-bit float behaves
exactly as serializing its narrowing to 32 bits. -/
theorem c5_float_serialization (ts : List NaiveToken) (v : F32) (w : F64) :
    (v.finite = true → serialize (.f32 v) ts = (ts ++ [.str v.dec], none)) ∧
    (v.finite = false → serialize (.f32 v) ts = (ts, some (.nonFiniteFloat v))) ∧
    serialize (.f64 w) ts = serialize (.f32 w.as32) ts := by
  refine ⟨fun h => ?_, fun h => ?_, rfl⟩ <;> simp [serialize, serializeF32, h]

/-- Witness for C5 at concrete floats. -/
theorem c5_float_serialization_witness :
    serialize (.f32 ⟨true, "1.5"⟩) [] = ([.str "1.5"], none) ∧
    serialize (.f32 ⟨false, "inf"⟩) [] = ([], some (.nonFiniteFloat ⟨false, "inf"⟩)) :=
  ⟨(c5_float_serialization [] ⟨true, "1.5"⟩ ⟨⟨true, "0"⟩, ""⟩).1 rfl,
   (c5_float_serialization [] ⟨false, "inf"⟩ ⟨⟨true, "0"⟩, ""⟩).2.1 rfl⟩

/-- C6: Serializing a byte sequence, the unit type, a unit struct, a newtype
enum variant, a tuple enum variant or a struct enum variant fails with the
unsupported-shape error named for that shape, leaving the token stream
unchanged (for the tuple and struct enum variants the shape method itself
returns success and the error is raised by the field or end methods, so the
whole-value serialization still nets out to the named error). -/
theorem c6_unsupported_shapes (ts : List NaiveToken) (bs : List Nat)
    (name variant : String) (v : HostValue) (es : List HostValue)
    (fs : List (String × HostValue)) :
    serialize (.bytes bs) ts = (ts, some (.unsupported "Bytes")) ∧
    serialize .unit ts = (ts, some (.unsupported "Unit Type")) ∧
    serialize (.unitStruct name) ts = (ts, some (.unsupported "Unit Struct")) ∧
    serialize (.newtypeVariant name variant v) ts
      = (ts, some (.unsupported "Enum Newtype Variant")) ∧
    serialize (.tupleVariant name variant es) ts
      = (ts, some (.unsupported "Enum Tuple Variant")) ∧
    serialize (.structVariant name variant fs) ts
      = (ts, some (.unsupported "Enum Struct Variant")) :=
  ⟨rfl, rfl, rfl, rfl, rfl, rfl⟩

/-- C7: Folding any token stream terminates with either root entries or
exactly one of the seven structural errors, and every surfaced error is one
of the two top-level kinds of `keyvalues-parser`'s error type. -/
theorem c7_builder_totality (ts : List NaiveToken) (e : KvError) :
    ((∃ d, build ts = .ok d) ∨
      build ts = .error .eofWhileParsingKey ∨
      build ts = .error .eofWhileParsingVal ∨
      build ts = .error .eofWhileParsingSeq ∨
      build ts = .error .eofWhileParsingObj ∨
      build ts = .error .expectedSomeVal ∨
      build ts = .error .expectedNonSeqVal ∨
      build ts = .error .trailingTokens) ∧
    ((∃ msg, e = .parseError msg) ∨ (∃ c, e = .invalidTokenStream c)) := by
  constructor
  · match h : build ts with
    | .ok d => exact Or.inl ⟨d, rfl⟩
    | .error c => cases c <;> simp
  · cases e with
    | parseError msg => exact Or.inl ⟨msg, rfl⟩
    | invalidTokenStream c => exact Or.inr ⟨c, rfl⟩

/-- C8: Encoding and building are deterministic functions of their input:
runs on identical inputs yield identical results. -/
theorem c8_determinism (v₁ v₂ : HostValue) (k₁ k₂ : Option String)
    (ts₁ ts₂ : List NaiveToken) (hv : v₁ = v₂) (hk : k₁ = k₂) (ht : ts₁ = ts₂) :
    encodeDoc v₁ k₁ = encodeDoc v₂ k₂ ∧ build ts₁ = build ts₂ := by
  subst hv hk ht; exact ⟨rfl, rfl⟩

/-- Witness for C8 at a concrete input. -/
theorem c8_determinism_witness :
    encodeDoc (.int 7) none = encodeDoc (.int 7) none ∧
    build [.str "k"] = build [.str "k"] :=
  c8_determinism (.int 7) (.int 7) none none [.str "k"] [.str "k"] rfl rfl rfl

/-- C9: A successful serialization into a fresh serializer leaves a
non-empty token stream (every successful run strictly grows the stream), so
the no-token branch of the root-key override is never reached after a
successful serialization. -/
theorem c9_success_nonempty (v : HostValue) (ts ts' : List NaiveToken)
    (h : serialize v ts = (ts', none)) :
    ts.length < ts'.length ∧ (ts = [] → ts' ≠ []) := by
  have hg := serialize_grows.1 v ts
  rw [h] at hg
  simp only [forall_const] at hg
  refine ⟨hg, fun he hne => ?_⟩
  subst he hne
  simp at hg

/-- Witness for C9 at a concrete input. -/
theorem c9_success_nonempty_witness :
    ([] : List NaiveToken).length < [NaiveToken.str "7"].length ∧
    (([] : List NaiveToken) = [] → [NaiveToken.str "7"] ≠ []) :=
  c9_success_nonempty (.int 7) [] [.str "7"] rfl

/-- C3 counterexample: with an explicit key supplied and no token produced,
the override leaves the stream empty rather than inserting the key at the
front, contradicting the claim's no-token clause. -/
theorem c3_root_key_override_counterexample :
    applyKey (some "num") [] = [] ∧ ([] : List NaiveToken) ≠ [.str "num"] :=
  ⟨rfl, by simp⟩

/-- C3 amended: when an explicit root key is supplied, a first `Str` token
is replaced in place; a first token that exists but is not a `Str` has the
key pushed in front of it; when no token was produced the stream is left
empty (not front-inserted).  Because a stream the builder accepts must
start with a `Str` token, every successful encode still begins with exactly
one key token. -/
theorem c3_root_key_override (k s : String) (t : NaiveToken)
    (rest ts : List NaiveToken) (d : Doc) (hns : ∀ s', t ≠ .str s')
    (hok : build ts = .ok d) :
    applyKey (some k) (.str s :: rest) = .str k :: rest ∧
    applyKey (some k) (t :: rest) = .str k :: t :: rest ∧
    applyKey (some k) [] = [] ∧
    (∃ s' rest', ts = .str s' :: rest') := by
  refine ⟨rfl, ?_, rfl, build_ok_head ts d hok⟩
  cases t with
  | str s' => exact absurd rfl (hns s')
  | objBegin => rfl
  | objEnd => rfl
  | seqBegin => rfl
  | seqEnd => rfl
  | null => rfl

/-- Witness for C3 at concrete inputs. -/
theorem c3_root_key_override_witness :
    applyKey (some "k") [.str "s"] = [.str "k"] ∧
    applyKey (some "k") [.objBegin] = [.str "k", .objBegin] ∧
    applyKey (some "k") [] = [] ∧
    (∃ s' rest', [NaiveToken.str "a", NaiveToken.str "b"] = .str s' :: rest') :=
  c3_root_key_override "k" "s" .objBegin [] [.str "a", .str "b"]
    [("a", .scalar "b")] (fun s' => by simp) rfl

/-- One-step unfolding of the decoder on a cons cell. -/
theorem utf8Decode_cons (b : Nat) (rest : List Nat) :
    utf8Decode (b :: rest) =
      (if b < 0x80 then (utf8Decode rest).map (b :: ·)
      else if b < 0xC2 then none
      else if b < 0xE0 then
        match rest with
        | b1 :: rest' =>
            if isCont b1 then (utf8Decode rest').map (val2 b b1 :: ·) else none
        | [] => none
      else if b < 0xF0 then
        match rest with
        | b1 :: b2 :: rest' =>
            if isCont b1 && firstContOk b b1 && isCont b2 then
              (utf8Decode rest').map (val3 b b1 b2 :: ·)
            else none
        | _ => none
      else if b < 0xF5 then
        match rest with
        | b1 :: b2 :: b3 :: rest' =>
            if isCont b1 && firstContOk b b1 && isCont b2 && isCont b3 then
              (utf8Decode rest').map (val4 b b1 b2 b3 :: ·)
            else none
        | _ => none
      else none) := by
  match rest with
  | [] => rfl
  | [b1] => rfl
  | [b1, b2] => rfl
  | b1 :: b2 :: b3 :: rest' => rfl

/-- Decoding after encoding one valid scalar value picks it back up. -/
theorem utf8Decode_encodeChar (n : Nat) (rest : List Nat)
    (hv : n < 0xd800 ∨ (0xdfff < n ∧ n < 0x110000)) :
    utf8Decode (utf8EncodeCharNat n ++ rest) = (utf8Decode rest).map (n :: ·) := by
  by_cases h1 : n < 0x80
  · rw [utf8EncodeCharNat, if_pos h1, List.cons_append, List.nil_append, utf8Decode_cons,
      if_pos h1]
  · by_cases h2 : n < 0x800
    · rw [utf8EncodeCharNat, if_neg h1, if_pos h2]
      simp only [List.cons_append, List.nil_append]
      rw [utf8Decode_cons, if_neg (by omega), if_neg (by omega), if_pos (by omega)]
      simp only []
      rw [if_pos (by simp [isCont]; omega)]
      have he : val2 (0xC0 + n / 64) (0x80 + n % 64) = n := by simp [val2]; omega
      rw [he]
    · by_cases h3 : n < 0x10000
      · rw [utf8EncodeCharNat, if_neg h1, if_neg h2, if_pos h3]
        simp only [List.cons_append, List.nil_append]
        rw [utf8Decode_cons, if_neg (by omega), if_neg (by omega), if_neg (by omega),
          if_pos (by omega)]
        simp only []
        rw [if_pos (by simp [isCont, firstContOk]; split_ifs <;> (try simp) <;> omega)]
        have he : val3 (0xE0 + n / 4096) (0x80 + n / 64 % 64) (0x80 + n % 64) = n := by
          simp [val3]; omega
        rw [he]
      · rw [utf8EncodeCharNat, if_neg h1, if_neg h2, if_neg h3]
        simp only [List.cons_append, List.nil_append]
        rw [utf8Decode_cons, if_neg (by omega), if_neg (by omega), if_neg (by omega),
          if_neg (by omega), if_pos (by omega)]
        simp only []
        rw [if_pos (by simp [isCont, firstContOk]; split_ifs <;> (try simp) <;> omega)]
        have he : val4 (0xF0 + n / 262144) (0x80 + n / 4096 % 64) (0x80 + n / 64 % 64)
            (0x80 + n % 64) = n := by simp [val4]; omega
        rw [he]

/-- The numeric code of a character is a valid Unicode scalar value. -/
theorem char_valid_nat (c : Char) :
    c.toNat < 0xd800 ∨ (0xdfff < c.toNat ∧ c.toNat < 0x110000) := by
  have h := c.valid
  simp [UInt32.isValidChar, Nat.isValidChar, Char.toNat] at h ⊢
  exact h

/-- Decoding the UTF-8 bytes of a character list recovers the codes. -/
theorem utf8Decode_flat (cs : List Char) :
    utf8Decode (cs.flatMap (fun c => utf8EncodeCharNat c.toNat))
      = some (cs.map (fun c => c.toNat)) := by
  induction cs with
  | nil => rfl
  | cons c cs ih =>
      rw [List.flatMap_cons, utf8Decode_encodeChar c.toNat _ (char_valid_nat c), ih]
      rfl

/-- Decoding the UTF-8 bytes of any string gives back the string. -/
theorem fromUtf8_strUtf8 (s : String) : fromUtf8 (strUtf8 s) = some s := by
  obtain ⟨cs⟩ := s
  simp only [strUtf8, fromUtf8, utf8Decode_flat]
  simp only [Option.map_some']
  congr 2
  calc List.map Char.ofNat (List.map (fun c => c.toNat) cs)
      = List.map (fun c => Char.ofNat c.toNat) cs := by rw [List.map_map]; rfl
    _ = List.map id cs := List.map_congr_left (fun c _ => Char.ofNat_toNat c)
    _ = cs := List.map_id cs

/-- C10: For every host value whose encoding into the in-memory byte buffer
succeeds, the written bytes are the UTF-8 encoding of the rendered text, and
the strict UTF-8 validation performed by `String::from_utf8` accepts them,
so the conversion inside `to_string` and `to_string_with_key` never
panics. -/
theorem c10_utf8_buffer (v : HostValue) (key : Option String) (bs : List Nat)
    (h : encodeBuffer v key = .ok bs) :
    ∃ s, bs = strUtf8 s ∧ fromUtf8 bs = some s := by
  unfold encodeBuffer at h
  match he : encodeDoc v key with
  | .ok d =>
      rw [he] at h
      refine ⟨renderDoc d, ?_, ?_⟩
      · injection h with h
        exact h.symm
      · injection h with h
        rw [← h]
        exact fromUtf8_strUtf8 _
  | .error e => rw [he] at h; cases h

/-- Witness for C10 at a concrete encode. -/
theorem c10_utf8_buffer_witness :
    ∃ s, strUtf8 (renderDoc [("r", Value.group [])]) = strUtf8 s ∧
      fromUtf8 (strUtf8 (renderDoc [("r", Value.group [])])) = some s :=
  c10_utf8_buffer (.struct "r" []) none (strUtf8 (renderDoc [("r", Value.group [])])) rfl

end VdfRs
